import Mathlib

/-!
Similarity search (similaritySearch.go): a shallow embedding

The Go program ranks the images of a directory by colour-histogram intersection
with a query image and keeps the five best matches.

Modelling conventions.
* `float64` is read in two ways.  `Histo`, `intersection`, `computeHistogram` and
  `compareHistograms` keep a value as the exact rational it denotes and compute without
  rounding: they carry the statements of exact arithmetic and those that only compare,
  copy or test values against zero.  `F64`, `HistoF`, `computeHistogramF` and
  `compareHistogramsF` follow the arithmetic of the source: every sum and quotient is
  rounded to the nearest `float64` (ties to even), and `0 / 0` is NaN.
* `uint32` arithmetic is modelled on `Nat` with an explicit `% 2 ^ 32`.
* A Go slice is a window on a backing array: the model keeps the visible elements
  and the spare cells of the backing array between `len` and `cap`.
* A run-time panic (index or slice bound out of range) is the value `none`.
-/

namespace SimilaritySearch

/-! ## Data model -/

/-- Go: `type Histo struct { Name string; H [512]float64 }`.  The bins are kept as a
list; a value of the Go type has exactly 512 of them (see `Histo.WellFormed`). -/
structure Histo where
  Name : String
  H : List ℚ
  deriving DecidableEq

/-- Go: `type intersection struct { Name string; similarity float64 }`. -/
structure intersection where
  Name : String
  similarity : ℚ
  deriving DecidableEq

/-- The zero value of `intersection` (empty name, similarity 0). -/
def intersection.zero : intersection := ⟨"", 0⟩

/-- The array type `[512]float64` fixes the number of bins. -/
def Histo.WellFormed (h : Histo) : Prop := h.H.length = 512

/-- A Go slice of `intersection`, as seen by one holder of the slice header:
`elems` are the `len` visible elements, `spare` the cells of the backing array
between `len` and `cap`. -/
structure Slice where
  elems : List intersection
  spare : List intersection
  deriving DecidableEq

/-- Go: `make([]intersection, n)`: `n` zero values, `len = cap = n`. -/
def makeSlice (n : Nat) : Slice := ⟨List.replicate n intersection.zero, []⟩

/-! ## KNN -/

/-- The scan loop of `KNN`:
`for i := 0; i < 5; i++ { if data.similarity > result[i].similarity { pos = i; break } }`.
`fuel` is the number of iterations left (`5 - i`); `none` stands for `pos = -1`. -/
def KNN.findPos (result : List intersection) (data : intersection) : Nat → Nat → Option Nat
  | 0, _ => none
  | fuel + 1, i =>
    if data.similarity > (result.getD i intersection.zero).similarity then some i
    else KNN.findPos result data fuel (i + 1)

/-- The shift loop of `KNN`:
`for i := 4; i > pos; i-- { result[i] = result[i-1] }`, started at index `i`. -/
def KNN.shift (pos : Nat) : Nat → List intersection → List intersection
  | 0, result => result
  | i + 1, result =>
    if i + 1 > pos then
      KNN.shift pos i (result.set (i + 1) (result.getD i intersection.zero))
    else result

/-- The `else` branch of `KNN` (taken when `len(result) >= 5`), on the visible
elements of the slice. -/
def KNN.insertFull (result : List intersection) (data : intersection) : List intersection :=
  match KNN.findPos result data 5 0 with
  | none => result
  | some pos => (KNN.shift pos 4 result).set pos data

/-- Go: `func KNN(result []intersection, data intersection)`.  The value is the
caller's slice after the call.  The slice header is passed by value, so the caller
keeps its `len`: in the branch `len(result) < 5` the statement
`result = append(result, data)` rebinds the callee's local header only; when the
backing array has a spare cell, `append` writes `data` into it (beyond the caller's
`len`), otherwise it allocates a fresh array and the caller's memory is untouched. -/
def KNN (result : Slice) (data : intersection) : Slice :=
  if result.elems.length < 5 then
    match result.spare with
    | [] => result
    | _ :: rest => ⟨result.elems, data :: rest⟩
  else
    ⟨KNN.insertFull result.elems data, result.spare⟩

/-- Go (`main`): `results := make([]intersection, 5)`. -/
def initialResults : Slice := makeSlice 5

/-- The caller's result list after offering the candidates of `offers` one after
another: `KNN(results, c)` for each `c` in turn. -/
def offerAll (results : Slice) (offers : List intersection) : Slice :=
  offers.foldl KNN results

/-! ## Reference notions for the top-5 list -/

/-- Strictly higher score: the test `data.similarity > result[i].similarity`. -/
def scoreGT (a b : intersection) : Prop := a.similarity > b.similarity

/-- Score at least as high: the order of a list sorted by descending similarity. -/
def scoreGE (a b : intersection) : Prop := a.similarity ≥ b.similarity

instance scoreGT.decidable : DecidableRel scoreGT := fun a b =>
  inferInstanceAs (Decidable (a.similarity > b.similarity))

instance scoreGE.decidable : DecidableRel scoreGE := fun a b =>
  inferInstanceAs (Decidable (a.similarity ≥ b.similarity))

instance scoreGE.isTotal : IsTotal intersection scoreGE :=
  ⟨fun a b => le_total b.similarity a.similarity⟩

instance scoreGE.isTrans : IsTrans intersection scoreGE :=
  ⟨fun _ _ _ h₁ h₂ => le_trans h₂ h₁⟩

/-- Unbounded insertion: `data` goes in front of the first entry whose similarity is
strictly lower, behind every entry with an equal or higher one. -/
def offerSorted (data : intersection) (l : List intersection) : List intersection :=
  List.orderedInsert scoreGT data l

/-- Stable sort by descending similarity: among equal similarities the element that
comes first in `l` comes first in the result. -/
def sortDesc (l : List intersection) : List intersection := List.insertionSort scoreGE l

/-- The specification's top-K for `K = 5`: the five highest-scoring candidates among
those offered (all of them when fewer were offered), ties in insertion order. -/
def topFive (offers : List intersection) : List intersection := (sortDesc offers).take 5

/-! ## Sharding (the loop of `main` that cuts `filenames` into `K` sub-slices) -/

/-- Go: the slice expression `s[lo:hi]` on a slice of strings.  It panics (`none`)
unless `lo <= hi <= cap(s)`; the model uses the stricter bound `hi <= len(s)`, so a
result `some _` means that no bound fell outside the list. -/
def sliceRange (s : List String) (lo hi : Nat) : Option (List String) :=
  if lo ≤ hi ∧ hi ≤ s.length then some ((s.drop lo).take (hi - lo)) else none

/-- The bounds `(start, end)` computed in iteration `i` of the sharding loop:
`start := i * size; end := start + size; if i == K-1 { end += remainder }`. -/
def shardBounds (K size remainder i : Nat) : Nat × Nat :=
  let start := i * size
  let stop := start + size
  if i = K - 1 then (start, stop + remainder) else (start, stop)

/-- The sharding loop `for i := 0; i < K; i++ { ...; a = append(a, filenames[start:end]) }`,
entered at index `i` with `fuel = K - i` iterations left and `a` built so far. -/
def shardLoop (filenames : List String) (K size remainder : Nat) :
    Nat → Nat → List (List String) → Option (List (List String))
  | 0, _, a => some a
  | fuel + 1, i, a =>
    match sliceRange filenames (shardBounds K size remainder i).1
        (shardBounds K size remainder i).2 with
    | none => none
    | some shard => shardLoop filenames K size remainder fuel (i + 1) (a ++ [shard])

/-- Go (`main`): `K := 16`, the number of shards. -/
def numShards : Nat := 16

/-- Go (`main`, lines 167-183): `size := len(filenames) / K`,
`remainder := len(filenames) % K`, then the sharding loop from `a = [][]string{}`. -/
def shardFiles (filenames : List String) : Option (List (List String)) :=
  shardLoop filenames numShards (filenames.length / numShards)
    (filenames.length % numShards) numShards 0 []

/-! ## Histograms -/

/-- A decoded image, as `computeHistogram` uses it: `bounds.Max.X`, `bounds.Max.Y`
and the `(red, green, blue)` samples that `img.At(x, y).RGBA()` returns (`uint32`). -/
structure Image where
  width : Nat
  height : Nat
  At : Nat → Nat → Nat × Nat × Nat

/-- The bin position of one pixel (`uint32` arithmetic):
`red >>= 16 - depth; blue >>= 16 - depth; green >>= 16 - depth;`
`pos := (red << (2 * depth)) + (green << depth) + blue`.
A negative shift count (`depth > 16`) panics.  Here `depth` is a non-negative value of
Go's `int`; `binIndexInt` takes every `int`. -/
def binIndex (depth : Nat) (px : Nat × Nat × Nat) : Option Nat :=
  if 16 < depth then none
  else
    let red := (px.1 % 2 ^ 32) >>> (16 - depth)
    let blue := (px.2.2 % 2 ^ 32) >>> (16 - depth)
    let green := (px.2.1 % 2 ^ 32) >>> (16 - depth)
    some ((((red <<< (2 * depth)) % 2 ^ 32 + (green <<< depth) % 2 ^ 32) % 2 ^ 32 + blue)
      % 2 ^ 32)

/-- The body of the pixel loop: `values[pos]++; sum++`; the index expression panics
when `pos` is not below `len(values)`. -/
def countPixel (depth : Nat) (st : List ℚ × ℚ) (px : Nat × Nat × Nat) : Option (List ℚ × ℚ) :=
  match binIndex depth px with
  | none => none
  | some pos =>
    if pos < st.1.length then some (st.1.set pos (st.1.getD pos 0 + 1), st.2 + 1) else none

/-- The two nested loops `for y := 0; y < height; y++ { for x := 0; x < width; x++ {..} }`
from `values = [512]float64{}` (all zero) and `sum = 0.0`. -/
def countPixels (img : Image) (depth : Nat) : Option (List ℚ × ℚ) :=
  (List.range img.height).foldlM
    (fun st y => (List.range img.width).foldlM
      (fun st x => countPixel depth st (img.At x y)) st)
    (List.replicate 512 0, 0)

/-- Lines 43-74 of `computeHistogram`, after the file has been decoded, in exact
arithmetic: count the pixels, then `values[i] = values[i] / sum` for every `i`, the
quotient not rounded.  Its bins stand for the source's when there is at least one
pixel; with `sum = 0` the source's bins are NaN, which `histogramOfF`, the `float64`
run, gives.  Whether the call returns or panics is the same in both. -/
def histogramOf (img : Image) (imagePath : String) (depth : Nat) : Option Histo :=
  match countPixels img depth with
  | none => none
  | some (values, sum) => some ⟨imagePath, values.map (fun v => v / sum)⟩

/-- How a call can fail: with a returned `error` value, or with a run-time panic. -/
inductive Failure where
  | returned (msg : String)
  | panic
  deriving DecidableEq

/-- Go: `func computeHistogram(imagePath string, depth int) (Histo, error)`.
Opening and decoding the file is the external capability `decode`; its error is
returned to the caller. -/
def computeHistogram (decode : String → Except String Image) (imagePath : String)
    (depth : Nat) : Except Failure Histo :=
  match decode imagePath with
  | .error msg => .error (.returned msg)
  | .ok img =>
    match histogramOf img imagePath depth with
    | none => .error .panic
    | some h => .ok h

/-- Go: `func compareHistograms(query Histo, data Histo) float64`:
`for i := 0; i < len(data.H); i++ { result = result + math.Min(query.H[i], data.H[i]) }`,
in exact arithmetic (the running sum is not rounded); `compareHistogramsF` is the
`float64` run. -/
def compareHistograms (query data : Histo) : ℚ :=
  (List.range data.H.length).foldl
    (fun result i => result + min (query.H.getD i 0) (data.H.getD i 0)) 0

/-- A valid histogram: 512 bins, all non-negative, summing to 1. -/
def Histo.Normalized (h : Histo) : Prop :=
  h.H.length = 512 ∧ (∀ v ∈ h.H, 0 ≤ v) ∧ h.H.sum = 1

/-! ## Sample inputs -/

/-- A 2x1 image: one pure red pixel, one pure blue pixel. -/
def redBlueImage : Image := ⟨2, 1, fun x _ => if x = 0 then (65535, 0, 0) else (0, 0, 65535)⟩

/-- A 1x1 image whose only pixel is black. -/
def blackPixel : Image := ⟨1, 1, fun _ _ => (0, 0, 0)⟩

/-- A 1x1 image whose only pixel is white. -/
def whitePixel : Image := ⟨1, 1, fun _ _ => (65535, 65535, 65535)⟩

/-- A histogram with all its mass in bin 0. -/
def pointHisto : Histo := ⟨"p.jpg", 1 :: List.replicate 511 0⟩

/-- A histogram with its mass split evenly between bins 0 and 1. -/
def splitHisto : Histo := ⟨"s.jpg", (1 / 2) :: (1 / 2) :: List.replicate 510 0⟩

/-! ## Producers, consumers and the search of `main` -/

/-- What one producer did to its channel: the histograms it sent, in order, and whether
it closed the channel at the end. -/
structure Emission where
  sent : List Histo
  closed : Bool
  deriving DecidableEq

/-- The loop of `computeHistograms`, with the histograms `sent` so far:
`for _, path := range imagePath { h, err := computeHistogram(path, depth);`
`if err != nil { fmt.Printf(...); return }; hChan <- h }; close(hChan)`.
A returned error leaves the function at once, before `close(hChan)`; `none` is a
run-time panic inside `computeHistogram`. -/
def computeHistograms.loop (decode : String → Except String Image) (depth : Nat) :
    List String → List Histo → Option Emission
  | [], sent => some ⟨sent, true⟩
  | path :: rest, sent =>
    match computeHistogram decode path depth with
    | .error (.returned _) => some ⟨sent, false⟩
    | .error .panic => none
    | .ok h => computeHistograms.loop decode depth rest (sent ++ [h])

/-- Go: `func computeHistograms(imagePath []string, depth int, hChan chan<- Histo)`,
with a receiver on the other end of the channel (every send completes). -/
def computeHistograms (decode : String → Except String Image) (imagePath : List String)
    (depth : Nat) : Option Emission :=
  computeHistograms.loop decode depth imagePath []

/-- The producers of `main`, one per shard: `go computeHistograms(a[i], 3, dChan[i])`.
`none` when one of them panics. -/
def produceAll (decode : String → Except String Image) (depth : Nat) :
    List (List String) → Option (List Emission)
  | [] => some []
  | shard :: rest =>
    match computeHistograms decode shard depth with
    | none => none
    | some e =>
      match produceAll decode depth rest with
      | none => none
      | some es => some (e :: es)

/-- The candidates one consumer offers, in order:
`for histo := range dChan[i] { intersect := intersection{histo.Name,`
`compareHistograms(query, histo)}; KNN(results, intersect) }`. -/
def consumerOffers (query : Histo) (sent : List Histo) : List intersection :=
  sent.map (fun histo => ⟨histo.Name, compareHistograms query histo⟩)

/-- How a run of `main` ends. -/
inductive SearchOutcome where
  | queryError (msg : String)
  | crashed
  | deadlocked
  | finished (results : List intersection)
  deriving DecidableEq

/-- Go: `main`, from the query histogram to the list that is printed; `filenames` is
the filtered directory listing.  The consumers run concurrently: `schedule` gives the
order in which their calls of `KNN` reach `results`, each call taken as a whole.  A
channel that is never closed keeps its consumer, and so `wg.Wait()`, blocked. -/
def search (decode : String → Except String Image)
    (schedule : List (List intersection) → List intersection)
    (queryPath : String) (filenames : List String) : SearchOutcome :=
  match computeHistogram decode queryPath 3 with
  | .error (.returned msg) => .queryError msg
  | .error .panic => .crashed
  | .ok query =>
    match shardFiles filenames with
    | none => .crashed
    | some a =>
      match produceAll decode 3 a with
      | none => .crashed
      | some emissions =>
        if emissions.all (fun e => e.closed) then
          .finished (offerAll initialResults
            (schedule (emissions.map (fun e => consumerOffers query e.sent)))).elems
        else .deadlocked

/-- A 0x0 image: no pixel at all. -/
def emptyImage : Image := ⟨0, 0, fun _ _ => (0, 0, 0)⟩

/-- A decoder that fails on `bad.jpg` and yields the red and blue image otherwise. -/
def sampleDecode : String → Except String Image := fun path =>
  if path = "bad.jpg" then .error "image: unknown format" else .ok redBlueImage

/-! ## The `float64` arithmetic of the source (IEEE 754 binary64, round to nearest even) -/

/-- A `float64` value: a finite number, kept as the rational it denotes, an infinity,
or NaN.  The sign of zero is not represented (the program only produces `+0`). -/
inductive F64 where
  | fin (q : ℚ)
  | inf (negative : Bool)
  | nan
  deriving DecidableEq

/-- The power `2 ^ e` for an integer exponent. -/
def pow2 (e : Int) : ℚ :=
  if 0 ≤ e then ((2 ^ e.toNat : Nat) : ℚ) else 1 / ((2 ^ (-e).toNat : Nat) : ℚ)

/-- The number of binary digits of `n` (`fuel` bounds the number of halvings). -/
def bitLength : Nat → Nat → Nat
  | 0, _ => 0
  | fuel + 1, n => if n = 0 then 0 else bitLength fuel (n / 2) + 1

/-- For `q > 0`: the integer `e` with `2 ^ e <= q < 2 ^ (e + 1)`, found from the bit
lengths of the numerator and the denominator. -/
def floorLog2 (q : ℚ) : Int :=
  let k : Int := (bitLength q.num.natAbs q.num.natAbs : Int) - (bitLength q.den q.den : Int)
  if q < pow2 k then k - 1 else k

/-- Rounding of a rational to the nearest integer, a tie going to the even one. -/
def roundHalfEven (q : ℚ) : Int :=
  let f := Rat.floor q
  let r := q - (f : ℚ)
  if r < 1 / 2 then f
  else if 1 / 2 < r then f + 1
  else if f % 2 = 0 then f else f + 1

/-- The `float64` nearest to the rational `q` (ties to even): 53 significant bits,
exponent at least -1022 (subnormal numbers below), overflow to an infinity. -/
def round64 (q : ℚ) : F64 :=
  if q = 0 then .fin 0
  else
    let e := max (floorLog2 |q|) (-1022)
    let ulp := pow2 (e - 52)
    let r := (roundHalfEven (q / ulp) : ℚ) * ulp
    if pow2 1024 ≤ |r| then .inf (decide (q < 0)) else .fin r

/-- Go: `x + y` on `float64`. -/
def F64.add : F64 → F64 → F64
  | .nan, _ => .nan
  | _, .nan => .nan
  | .inf s, .inf t => if s = t then .inf s else .nan
  | .inf s, .fin _ => .inf s
  | .fin _, .inf t => .inf t
  | .fin x, .fin y => round64 (x + y)

/-- Go: `x / y` on `float64` (`0 / 0` is NaN, a non-zero number over `0` an infinity). -/
def F64.div : F64 → F64 → F64
  | .nan, _ => .nan
  | _, .nan => .nan
  | .inf _, .inf _ => .nan
  | .inf s, .fin y => .inf (s != decide (y < 0))
  | .fin _, .inf _ => .fin 0
  | .fin x, .fin y =>
    if y = 0 then (if x = 0 then .nan else .inf (decide (x < 0)))
    else round64 (x / y)

/-- Go: `math.Min(x, y)`, with its special cases in the order of the library:
`-Inf` when either argument is `-Inf`, else NaN when either argument is NaN. -/
def F64.min : F64 → F64 → F64
  | .inf true, _ => .inf true
  | _, .inf true => .inf true
  | .nan, _ => .nan
  | _, .nan => .nan
  | .inf false, y => y
  | x, .inf false => x
  | .fin x, .fin y => .fin (Min.min x y)

/-- The type `Histo` with its bins as `float64` values. -/
structure HistoF where
  Name : String
  H : List F64
  deriving DecidableEq

/-- A histogram of finite bins, read as `float64` values. -/
def Histo.toF64 (h : Histo) : HistoF := ⟨h.Name, h.H.map F64.fin⟩

/-- The bin position of one pixel for Go's `depth int`: a negative shift count
(`2 * depth` when `depth < 0`, `16 - depth` when `depth > 16`) panics. -/
def binIndexInt (depth : Int) (px : Nat × Nat × Nat) : Option Nat :=
  if depth < 0 then none else binIndex depth.toNat px

/-- The body of the pixel loop on `float64` counters: `values[pos]++; sum++`. -/
def countPixelF (depth : Int) (st : List F64 × F64) (px : Nat × Nat × Nat) :
    Option (List F64 × F64) :=
  match binIndexInt depth px with
  | none => none
  | some pos =>
    if pos < st.1.length then
      some (st.1.set pos ((st.1.getD pos (.fin 0)).add (.fin 1)), st.2.add (.fin 1))
    else none

/-- The two nested pixel loops, from `var values [512]float64` and `sum := 0.0`. -/
def countPixelsF (img : Image) (depth : Int) : Option (List F64 × F64) :=
  (List.range img.height).foldlM
    (fun st y => (List.range img.width).foldlM
      (fun st x => countPixelF depth st (img.At x y)) st)
    (List.replicate 512 (.fin 0), .fin 0)

/-- Lines 43-74 of `computeHistogram` in `float64`: count the pixels, then
`values[i] = values[i] / sum` for every `i`. -/
def histogramOfF (img : Image) (imagePath : String) (depth : Int) : Option HistoF :=
  match countPixelsF img depth with
  | none => none
  | some (values, sum) => some ⟨imagePath, values.map (fun v => v.div sum)⟩

/-- Go: `func computeHistogram(imagePath string, depth int) (Histo, error)` with its
`float64` arithmetic. -/
def computeHistogramF (decode : String → Except String Image) (imagePath : String)
    (depth : Int) : Except Failure HistoF :=
  match decode imagePath with
  | .error msg => .error (.returned msg)
  | .ok img =>
    match histogramOfF img imagePath depth with
    | none => .error .panic
    | some h => .ok h

/-- Go: `func compareHistograms(query Histo, data Histo) float64` with its `float64`
arithmetic: the running sum is rounded after every addition. -/
def compareHistogramsF (query data : HistoF) : F64 :=
  (List.range data.H.length).foldl
    (fun result i => result.add ((query.H.getD i (.fin 0)).min (data.H.getD i (.fin 0))))
    (.fin 0)

/-- A normalised histogram whose own `float64` running sum exceeds 1: the bins are
`(2^55 + 8, 5, 5, 5, 5, 2^55 - 28) / 2^56` and 506 zeros. -/
def roundingHisto : Histo :=
  ⟨"r.jpg", [(2 ^ 55 + 8) / 2 ^ 56, 5 / 2 ^ 56, 5 / 2 ^ 56, 5 / 2 ^ 56, 5 / 2 ^ 56,
    (2 ^ 55 - 28) / 2 ^ 56] ++ List.replicate 506 0⟩

/-- A normalised histogram with bins `1/2, 1/4, 1/4 - 2^-55, 2^-55` and 508 zeros. -/
def quarterHistoA : Histo :=
  ⟨"a.jpg", [1 / 2, 1 / 4, 1 / 4 - 1 / 2 ^ 55, 1 / 2 ^ 55] ++ List.replicate 508 0⟩

/-- A normalised histogram with bins `1/2, 1/4, 1/4, 0` and 508 zeros. -/
def quarterHistoB : Histo :=
  ⟨"b.jpg", [1 / 2, 1 / 4, 1 / 4, 0] ++ List.replicate 508 0⟩

theorem insertFull_cons5 (a b c d e : intersection) (rest : List intersection) (x : intersection) :
    KNN.insertFull (a :: b :: c :: d :: e :: rest) x
      = (List.orderedInsert scoreGT x [a, b, c, d, e]).take 5 ++ rest := by
  simp only [KNN.insertFull, KNN.findPos, KNN.shift, List.orderedInsert, scoreGT, List.getD_cons_zero, List.getD_cons_succ]
  split_ifs <;> simp

theorem insertFull_of_length_eq (l : List intersection) (x : intersection) (h : l.length = 5) :
    KNN.insertFull l x = (List.orderedInsert scoreGT x l).take 5 := by
  match l, h with
  | [a, b, c, d, e], _ => simpa using insertFull_cons5 a b c d e [] x


theorem take_orderedInsert_take (x : intersection) (n : Nat) (l : List intersection) :
    (List.orderedInsert scoreGT x (l.take n)).take n = (List.orderedInsert scoreGT x l).take n := by
  induction l generalizing n with
  | nil => simp
  | cons b l ih =>
    cases n with
    | zero => simp
    | succ n =>
      by_cases h : scoreGT x b
      · have hb : b :: List.take n l = List.take (n + 1) (b :: l) := rfl
        simp only [List.orderedInsert, h, if_true, List.take_succ_cons]
        rw [hb, List.take_take]
        simp
      · simp [List.orderedInsert, h, ih]

theorem take_foldl_offerSorted_take (n : Nat) (offers l : List intersection) :
    (offers.foldl (fun acc c => offerSorted c acc) (l.take n)).take n
      = (offers.foldl (fun acc c => offerSorted c acc) l).take n := by
  induction offers generalizing l with
  | nil => simp
  | cons c offers ih =>
    simp only [List.foldl_cons]
    rw [← ih (offerSorted c (l.take n)), ← ih (offerSorted c l)]
    simp only [offerSorted, take_orderedInsert_take]

theorem KNN_elems_of_length_eq (s : Slice) (c : intersection) (h : s.elems.length = 5) :
    (KNN s c).elems = (offerSorted c s.elems).take 5 := by
  simp [KNN, h, offerSorted, insertFull_of_length_eq]

theorem offerAll_elems (offers : List intersection) (s : Slice) (h : s.elems.length = 5) :
    (offerAll s offers).elems
      = (offers.foldl (fun acc c => offerSorted c acc) s.elems).take 5 := by
  induction offers generalizing s with
  | nil => simp [offerAll, List.take_of_length_le, h]
  | cons c offers ih =>
    have hlen : (KNN s c).elems.length = 5 := by
      rw [KNN_elems_of_length_eq s c h]
      simp [offerSorted, List.orderedInsert_length, h]
    have := ih (KNN s c) hlen
    simp only [offerAll, List.foldl_cons] at this ⊢
    rw [this, KNN_elems_of_length_eq s c h, take_foldl_offerSorted_take]

theorem orderedInsert_comm (a c : intersection) (l : List intersection) :
    List.orderedInsert scoreGT c (List.orderedInsert scoreGE a l)
      = List.orderedInsert scoreGE a (List.orderedInsert scoreGT c l) := by
  induction l with
  | nil =>
    by_cases h : c.similarity > a.similarity
    · have h' : ¬ a.similarity ≥ c.similarity := not_le.mpr h
      simp [List.orderedInsert, scoreGT, scoreGE, h, h']
    · have h' : a.similarity ≥ c.similarity := not_lt.mp h
      simp [List.orderedInsert, scoreGT, scoreGE, h, h']
  | cons b l ih =>
    by_cases hab : a.similarity ≥ b.similarity <;> by_cases hcb : c.similarity > b.similarity <;>
      by_cases hca : c.similarity > a.similarity
    all_goals first
      | (simp [List.orderedInsert, scoreGT, scoreGE, hab, hcb, hca, ih, not_le.mpr, le_of_lt]; done)
      | (have h' : a.similarity ≥ c.similarity := not_lt.mp hca
         simp [List.orderedInsert, scoreGT, scoreGE, hab, hcb, hca, h', ih]; done)
      | (have h' : ¬ a.similarity ≥ c.similarity := not_le.mpr hca
         simp [List.orderedInsert, scoreGT, scoreGE, hab, hcb, hca, h', ih]; done)
      | (exfalso; simp only [ge_iff_le, gt_iff_lt, not_le, not_lt] at *; linarith)


theorem sortDesc_cons (a : intersection) (l : List intersection) :
    sortDesc (a :: l) = List.orderedInsert scoreGE a (sortDesc l) := rfl

theorem mem_sortDesc (x : intersection) (l : List intersection) : x ∈ sortDesc l ↔ x ∈ l :=
  List.mem_insertionSort scoreGE

theorem offerSorted_sortDesc (c : intersection) (l : List intersection) :
    offerSorted c (sortDesc l) = sortDesc (l ++ [c]) := by
  induction l with
  | nil => simp [offerSorted, sortDesc]
  | cons a l ih =>
    rw [List.cons_append, sortDesc_cons, sortDesc_cons, ← ih]
    exact orderedInsert_comm a c (sortDesc l)

theorem foldl_offerSorted_sortDesc (offers l : List intersection) :
    offers.foldl (fun acc c => offerSorted c acc) (sortDesc l) = sortDesc (l ++ offers) := by
  induction offers generalizing l with
  | nil => simp
  | cons c offers ih =>
    simp only [List.foldl_cons]
    rw [offerSorted_sortDesc, ih]
    simp

theorem sortDesc_replicate_zero (k : Nat) :
    sortDesc (List.replicate k intersection.zero) = List.replicate k intersection.zero := by
  apply List.Sorted.insertionSort_eq
  simp [List.Sorted, List.pairwise_replicate, scoreGE]

theorem offerAll_initial_elems (offers : List intersection) :
    (offerAll initialResults offers).elems
      = (sortDesc (List.replicate 5 intersection.zero ++ offers)).take 5 := by
  rw [offerAll_elems offers initialResults (by simp [initialResults, makeSlice])]
  simp only [initialResults, makeSlice]
  rw [← sortDesc_replicate_zero 5, foldl_offerSorted_sortDesc, sortDesc_replicate_zero]

theorem orderedInsert_append_of_ge (a : intersection) (P N : List intersection)
    (h : ∀ n ∈ N, scoreGE a n) :
    List.orderedInsert scoreGE a (P ++ N) = List.orderedInsert scoreGE a P ++ N := by
  induction P with
  | nil =>
    cases N with
    | nil => simp
    | cons n N => simp [List.orderedInsert, h n (by simp)]
  | cons p P ih =>
    by_cases hp : scoreGE a p
    · simp [List.orderedInsert, hp]
    · simp [List.orderedInsert, hp, ih]

theorem orderedInsert_append_of_not_ge (a : intersection) (P N : List intersection)
    (h : ∀ p ∈ P, ¬ scoreGE a p) :
    List.orderedInsert scoreGE a (P ++ N) = P ++ List.orderedInsert scoreGE a N := by
  induction P with
  | nil => simp
  | cons p P ih =>
    have hp : ¬ scoreGE a p := h p (by simp)
    simp [List.orderedInsert, hp, ih (fun q hq => h q (by simp [hq]))]

theorem sortDesc_split (t : ℚ) (l : List intersection) :
    sortDesc l = sortDesc (l.filter (fun c => decide (t < c.similarity)))
      ++ sortDesc (l.filter (fun c => !decide (t < c.similarity))) := by
  induction l with
  | nil => simp [sortDesc]
  | cons a l ih =>
    by_cases ha : t < a.similarity
    · simp only [sortDesc, List.insertionSort, List.filter_cons, ha, decide_True, if_true,
        Bool.not_true, Bool.false_eq_true, if_false] at ih ⊢
      rw [ih, orderedInsert_append_of_ge]
      intro n hn
      rw [List.mem_insertionSort, List.mem_filter] at hn
      have : ¬ t < n.similarity := by simpa using hn.2
      exact le_of_lt (lt_of_le_of_lt (not_lt.mp this) ha)
    · simp only [sortDesc, List.insertionSort, List.filter_cons, ha, decide_False, if_true,
        Bool.not_false, Bool.false_eq_true, if_false] at ih ⊢
      rw [ih, orderedInsert_append_of_not_ge]
      intro p hp
      rw [List.mem_insertionSort, List.mem_filter] at hp
      have : t < p.similarity := by simpa using hp.2
      exact not_le.mpr (lt_of_le_of_lt (not_lt.mp ha) this)

theorem sortDesc_replicate_zero_append (k : Nat) (l : List intersection) :
    sortDesc (List.replicate k intersection.zero ++ l)
      = sortDesc (l.filter (fun c => decide (0 < c.similarity)))
        ++ (List.replicate k intersection.zero
        ++ sortDesc (l.filter (fun c => !decide (0 < c.similarity)))) := by
  induction k with
  | zero => simpa using sortDesc_split 0 l
  | succ k ih =>
    rw [List.replicate_succ, List.cons_append, sortDesc_cons, ih,
      orderedInsert_append_of_not_ge, orderedInsert_append_of_ge]
    · cases k <;> simp [List.orderedInsert, List.replicate_succ, scoreGE]
    · intro n hn
      rw [mem_sortDesc, List.mem_filter] at hn
      have : ¬ 0 < n.similarity := by simpa using hn.2
      exact not_lt.mp this
    · intro p hp
      rw [mem_sortDesc, List.mem_filter] at hp
      have : 0 < p.similarity := by simpa using hp.2
      exact not_le.mpr this


/-! ## KNN: the claims -/

/-- C1 (as stated, refuted): offered alone to main's initial list, a candidate with
similarity 0 is not held at the end, while the specification's top five of that single
offer is the candidate itself. -/
theorem KNN_topFive_counterexample :
    (offerAll initialResults [⟨"a", 0⟩]).elems ≠ topFive [⟨"a", 0⟩]
      ∧ (⟨"a", 0⟩ : intersection) ∉ (offerAll initialResults [⟨"a", 0⟩]).elems := by
  decide

/-- C1 (amended): after any sequence of offers to main's initial list (five zero-valued
entries), the list is the first five entries of: the offered candidates of positive
similarity in descending order of similarity, ties in insertion order, followed by the
five zero-valued entries. -/
theorem KNN_keeps_top_positive (offers : List intersection) :
    (offerAll initialResults offers).elems
      = (sortDesc (offers.filter (fun c => decide (0 < c.similarity)))
          ++ List.replicate 5 intersection.zero).take 5 := by
  rw [offerAll_initial_elems, sortDesc_replicate_zero_append, ← List.append_assoc]
  exact List.take_append_of_le_length (by simp)

/-- C2: from main's initial list, after every call of KNN in any sequence of offers
(that is, after every prefix of the sequence) the list has at most 5 entries and each
entry's similarity is at least that of the next one. -/
theorem KNN_sorted_invariant (offers : List intersection) (n : Nat) :
    (offerAll initialResults (offers.take n)).elems.length ≤ 5
      ∧ List.Chain' (fun a b => a.similarity ≥ b.similarity)
          (offerAll initialResults (offers.take n)).elems := by
  rw [offerAll_initial_elems]
  refine ⟨by simp, ?_⟩
  have hs : List.Sorted scoreGE
      (sortDesc (List.replicate 5 intersection.zero ++ offers.take n)) :=
    List.sorted_insertionSort scoreGE _
  exact (List.Pairwise.sublist (List.take_sublist 5 _) hs).chain'

/-- C10 (the code at the failing input): KNN called with a two-entry list (with or
without spare capacity) leaves the caller's list as it was: the candidate is not among
its entries and its length is still 2. -/
theorem KNN_append_not_visible :
    (KNN ⟨[⟨"x", 9 / 10⟩, ⟨"y", 1 / 2⟩], []⟩ ⟨"a", 3 / 4⟩).elems
        = [⟨"x", 9 / 10⟩, ⟨"y", 1 / 2⟩]
      ∧ (KNN ⟨[⟨"x", 9 / 10⟩, ⟨"y", 1 / 2⟩], [intersection.zero]⟩ ⟨"a", 3 / 4⟩).elems
        = [⟨"x", 9 / 10⟩, ⟨"y", 1 / 2⟩]
      ∧ (KNN ⟨[⟨"x", 9 / 10⟩, ⟨"y", 1 / 2⟩], []⟩ ⟨"a", 3 / 4⟩).elems.length = 2 := by
  simp [KNN]


/-! ## Sharding -/

theorem shardBounds_fst (K size remainder i : Nat) :
    (shardBounds K size remainder i).1 = i * size := by
  unfold shardBounds
  split_ifs <;> rfl

theorem shardBounds_snd (K size remainder i : Nat) :
    (shardBounds K size remainder i).2
      = i * size + size + (if i = K - 1 then remainder else 0) := by
  unfold shardBounds
  split_ifs <;> rfl

/-- How far the list is covered once the shards `0 .. i-1` are cut. -/
theorem shardBounds_snd_eq (K size remainder N i : Nat) (hN : K * size + remainder = N)
    (hi : i < K) :
    (shardBounds K size remainder i).2 = if i + 1 = K then N else (i + 1) * size := by
  rw [shardBounds_snd]
  by_cases h : i = K - 1
  · have h1 : i + 1 = K := by omega
    rw [if_pos h, if_pos h1, ← hN, ← h1]
    ring
  · have h1 : ¬ i + 1 = K := by omega
    rw [if_neg h, if_neg h1]
    ring

theorem shardBounds_snd_le (K size remainder N i : Nat) (hN : K * size + remainder = N)
    (hi : i < K) : (shardBounds K size remainder i).2 ≤ N := by
  rw [shardBounds_snd_eq K size remainder N i hN hi]
  split_ifs with h
  · exact le_refl _
  · have : (i + 1) * size ≤ K * size := Nat.mul_le_mul_right size (by omega)
    omega

theorem shardBounds_fst_le_snd (K size remainder i : Nat) :
    (shardBounds K size remainder i).1 ≤ (shardBounds K size remainder i).2 := by
  rw [shardBounds_fst, shardBounds_snd]
  omega

theorem shardLoop_spec (filenames : List String) (K size remainder : Nat)
    (hN : K * size + remainder = filenames.length) :
    ∀ (fuel i : Nat) (a : List (List String)), i + fuel = K → a.length = i →
      a.flatten = filenames.take (if i = K then filenames.length else i * size) →
      (∀ j, j < i → a[j]? = sliceRange filenames (shardBounds K size remainder j).1
        (shardBounds K size remainder j).2) →
      ∃ r, shardLoop filenames K size remainder fuel i a = some r ∧ r.length = K
        ∧ r.flatten = filenames
        ∧ ∀ j, j < K → r[j]? = sliceRange filenames (shardBounds K size remainder j).1
            (shardBounds K size remainder j).2 := by
  intro fuel
  induction fuel with
  | zero =>
    intro i a hi hlen hflat hget
    have hiK : i = K := by omega
    subst hiK
    exact ⟨a, rfl, hlen, by simpa using hflat, hget⟩
  | succ fuel ih =>
    intro i a hi hlen hflat hget
    have hiK : i < K := by omega
    have hne : ¬ i = K := by omega
    rw [if_neg hne] at hflat
    have hle := shardBounds_snd_le K size remainder filenames.length i hN hiK
    have hlo := shardBounds_fst_le_snd K size remainder i
    have hslice : sliceRange filenames (shardBounds K size remainder i).1
        (shardBounds K size remainder i).2
        = some ((filenames.drop (shardBounds K size remainder i).1).take
            ((shardBounds K size remainder i).2 - (shardBounds K size remainder i).1)) := by
      simp [sliceRange, hle, hlo]
    simp only [shardLoop, hslice]
    apply ih (i + 1)
    · omega
    · simp [hlen]
    · rw [List.flatten_append, hflat, ← shardBounds_snd_eq K size remainder filenames.length i hN hiK]
      have hsplit : (shardBounds K size remainder i).2
          = i * size + ((shardBounds K size remainder i).2 - (shardBounds K size remainder i).1) := by
        rw [shardBounds_fst] at hlo ⊢
        omega
      conv_rhs => rw [hsplit, List.take_add]
      simp [shardBounds_fst]
    · intro j hj
      by_cases hji : j < i
      · rw [List.getElem?_append_left (by omega)]
        exact hget j hji
      · have hji' : j = i := by omega
        subst hji'
        rw [hslice, ← hlen, List.getElem?_concat_length]

theorem shardBounds_unique (size remainder N p : Nat) (hN : 16 * size + remainder = N)
    (hp : p < N) :
    ∃! j, j < 16 ∧ (shardBounds 16 size remainder j).1 ≤ p
      ∧ p < (shardBounds 16 size remainder j).2 := by
  have hmono : ∀ i j : Nat, i ≤ j → i * size ≤ j * size :=
    fun i j h => Nat.mul_le_mul_right size h
  have hP0 : (fun j => j * size ≤ p) 0 := by simp
  have hg := Nat.findGreatest_spec (P := fun j => j * size ≤ p) (Nat.zero_le 15) hP0
  have hg15 := Nat.findGreatest_le (P := fun j => j * size ≤ p) 15
  refine ⟨Nat.findGreatest (fun j => j * size ≤ p) 15, ⟨by omega, ?_, ?_⟩, ?_⟩
  · rw [shardBounds_fst]
    exact hg
  · rw [shardBounds_snd_eq 16 size remainder N _ hN (by omega)]
    split_ifs with h
    · exact hp
    · have := Nat.findGreatest_is_greatest (P := fun j => j * size ≤ p)
        (Nat.lt_succ_self (Nat.findGreatest (fun j => j * size ≤ p) 15)) (by omega)
      exact not_le.mp this
  · rintro j ⟨hj, hlo, hhi⟩
    rw [shardBounds_fst] at hlo
    rw [shardBounds_snd_eq 16 size remainder N j hN hj] at hhi
    rcases Nat.lt_trichotomy j (Nat.findGreatest (fun j => j * size ≤ p) 15) with h | h | h
    · exfalso
      rw [if_neg (by omega)] at hhi
      have := hmono (j + 1) _ h
      have hg' : Nat.findGreatest (fun j => j * size ≤ p) 15 * size ≤ p := hg
      omega
    · exact h
    · exfalso
      exact Nat.findGreatest_is_greatest (P := fun j => j * size ≤ p) h (by omega) hlo

/-- C8: for a list of file names of any length the sharding loop of main ends without a
slice bound outside the list and yields exactly 16 shards, each the contiguous piece
of the list between its two bounds, whose concatenation in shard order is the list;
every list position lies between the bounds of exactly one shard. -/
theorem shardFiles_partition (filenames : List String) :
    ∃ a, shardFiles filenames = some a
      ∧ a.length = 16
      ∧ a.flatten = filenames
      ∧ (∀ j, j < 16 → ∃ lo hi, lo ≤ hi ∧ hi ≤ filenames.length
          ∧ a[j]? = some ((filenames.drop lo).take (hi - lo)))
      ∧ (∀ p, p < filenames.length → ∃! j, j < 16
          ∧ (shardBounds 16 (filenames.length / 16) (filenames.length % 16) j).1 ≤ p
          ∧ p < (shardBounds 16 (filenames.length / 16) (filenames.length % 16) j).2) := by
  have hN : 16 * (filenames.length / 16) + filenames.length % 16 = filenames.length :=
    Nat.div_add_mod _ 16
  obtain ⟨r, hr, hlen, hflat, hget⟩ :=
    shardLoop_spec filenames 16 (filenames.length / 16) (filenames.length % 16) hN
      16 0 [] (by simp) rfl (by simp) (by intro j hj; omega)
  refine ⟨r, hr, hlen, hflat, ?_, ?_⟩
  · intro j hj
    refine ⟨_, _, shardBounds_fst_le_snd 16 _ _ j,
      shardBounds_snd_le 16 _ _ filenames.length j hN hj, ?_⟩
    rw [hget j hj]
    simp [sliceRange, shardBounds_fst_le_snd,
      shardBounds_snd_le 16 _ _ filenames.length j hN hj]
  · intro p hp
    exact shardBounds_unique _ _ filenames.length p hN hp


/-! ## Histogram extraction -/

theorem sum_set_succ (l : List ℚ) (pos : Nat) (h : pos < l.length) :
    (l.set pos (l.getD pos 0 + 1)).sum = l.sum + 1 := by
  induction l generalizing pos with
  | nil => simp at h
  | cons a l ih =>
    cases pos with
    | zero => simp; ring
    | succ pos =>
      have := ih pos (by simpa using h)
      simp only [List.set_cons_succ, List.sum_cons, List.getD_cons_succ, this]
      ring

theorem getD_nonneg (l : List ℚ) (h : ∀ v ∈ l, 0 ≤ v) (i : Nat) : 0 ≤ l.getD i 0 := by
  by_cases hi : i < l.length
  · rw [List.getD_eq_getElem l 0 hi]
    exact h _ (List.getElem_mem hi)
  · rw [List.getD_eq_default l 0 (by omega)]

/-- The state of the pixel loop after `n` pixels: 512 non-negative counters whose
total is `sum`, and `sum = n`. -/
theorem countPixel_inv (depth : Nat) (st : List ℚ × ℚ) (px : Nat × Nat × Nat) (n pos : Nat)
    (hb : binIndex depth px = some pos) (hpos : pos < 512)
    (hst : st.1.length = 512 ∧ (∀ v ∈ st.1, 0 ≤ v) ∧ st.1.sum = st.2 ∧ st.2 = n) :
    ∃ st', countPixel depth st px = some st'
      ∧ (st'.1.length = 512 ∧ (∀ v ∈ st'.1, 0 ≤ v) ∧ st'.1.sum = st'.2
          ∧ st'.2 = ((n + 1 : Nat) : ℚ)) := by
  obtain ⟨hlen, hnn, hsum, hn⟩ := hst
  have hlt : pos < st.1.length := by omega
  refine ⟨(st.1.set pos (st.1.getD pos 0 + 1), st.2 + 1), ?_, ?_, ?_, ?_, ?_⟩
  · simp [countPixel, hb, hlt]
  · simp [hlen]
  · intro v hv
    rcases List.mem_or_eq_of_mem_set hv with hv | hv
    · exact hnn v hv
    · rw [hv]
      have := getD_nonneg st.1 hnn pos
      linarith
  · simp only
    rw [sum_set_succ st.1 pos hlt, hsum]
  · simp only
    rw [hn]
    push_cast
    ring

theorem foldlM_inv {α σ : Type} (f : σ → α → Option σ) (I : σ → Nat → Prop) (xs : List α)
    (k : Nat) (hstep : ∀ st n x, x ∈ xs → I st n → ∃ st', f st x = some st' ∧ I st' (n + k)) :
    ∀ st n, I st n → ∃ st', xs.foldlM f st = some st' ∧ I st' (n + k * xs.length) := by
  induction xs with
  | nil =>
    intro st n h
    exact ⟨st, rfl, by simpa using h⟩
  | cons x xs ih =>
    intro st n h
    obtain ⟨st1, h1, hI1⟩ := hstep st n x (by simp) h
    obtain ⟨st2, h2, hI2⟩ :=
      ih (fun st n y hy hI => hstep st n y (by simp [hy]) hI) st1 (n + k) hI1
    refine ⟨st2, ?_, ?_⟩
    · simp [List.foldlM_cons, h1, h2]
    · have : n + k * (x :: xs).length = n + k + k * xs.length := by
        simp [Nat.mul_succ]; omega
      rw [this]
      exact hI2

theorem countPixels_inv (img : Image) (depth : Nat)
    (hpx : ∀ x y, x < img.width → y < img.height →
      ∃ pos, binIndex depth (img.At x y) = some pos ∧ pos < 512) :
    ∃ st, countPixels img depth = some st
      ∧ (st.1.length = 512 ∧ (∀ v ∈ st.1, 0 ≤ v) ∧ st.1.sum = st.2
          ∧ st.2 = ((img.width * img.height : Nat) : ℚ)) := by
  have houter := foldlM_inv
    (fun st y => (List.range img.width).foldlM
      (fun st x => countPixel depth st (img.At x y)) st)
    (fun st n => st.1.length = 512 ∧ (∀ v ∈ st.1, 0 ≤ v) ∧ st.1.sum = st.2
      ∧ st.2 = ((n : Nat) : ℚ))
    (List.range img.height) img.width
    (by
      intro st n y hy hI
      have hinner := foldlM_inv (fun st x => countPixel depth st (img.At x y))
        (fun st n => st.1.length = 512 ∧ (∀ v ∈ st.1, 0 ≤ v) ∧ st.1.sum = st.2
          ∧ st.2 = ((n : Nat) : ℚ))
        (List.range img.width) 1
        (by
          intro st n x hx hI
          obtain ⟨pos, hb, hpos⟩ := hpx x y (List.mem_range.mp hx) (List.mem_range.mp hy)
          exact countPixel_inv depth st (img.At x y) n pos hb hpos hI)
        st n hI
      simpa using hinner)
    (List.replicate 512 0, 0) 0
    ⟨List.length_replicate _ _, fun v hv => le_of_eq (List.eq_of_mem_replicate hv).symm,
      by simp only [List.sum_replicate, smul_zero], Nat.cast_zero.symm⟩
  obtain ⟨st, hst, hI⟩ := houter
  refine ⟨st, hst, ?_⟩
  simpa using hI


theorem binIndex_exact (d : Nat) (px : Nat × Nat × Nat) (hd : d ≤ 8)
    (h1 : px.1 ≤ 65535) (h2 : px.2.1 ≤ 65535) (h3 : px.2.2 ≤ 65535) :
    ∃ pos, binIndex d px = some pos ∧ pos < 2 ^ (3 * d)
      ∧ pos = (px.1 >>> (16 - d)) * 2 ^ (2 * d) + (px.2.1 >>> (16 - d)) * 2 ^ d
          + (px.2.2 >>> (16 - d)) := by
  obtain ⟨r, g, b⟩ := px
  simp only at h1 h2 h3
  interval_cases d <;>
    simp only [binIndex, Nat.shiftRight_eq_div_pow, Nat.shiftLeft_eq] <;>
    norm_num <;> omega


theorem foldlM_preserves {α σ : Type} (f : σ → α → Option σ) (P : σ → Prop) (xs : List α)
    (hstep : ∀ st x st', f st x = some st' → P st → P st') :
    ∀ st st', xs.foldlM f st = some st' → P st → P st' := by
  induction xs with
  | nil =>
    intro st st' h hP
    simp only [List.foldlM_nil] at h
    cases h
    exact hP
  | cons x xs ih =>
    intro st st' h hP
    rw [List.foldlM_cons] at h
    cases h1 : f st x with
    | none => simp [h1] at h
    | some st1 =>
      rw [h1] at h
      exact ih st1 st' h (hstep st x st1 h1 hP)

theorem countPixel_length (depth : Nat) (st st' : List ℚ × ℚ) (px : Nat × Nat × Nat)
    (h : countPixel depth st px = some st') (hlen : st.1.length = 512) :
    st'.1.length = 512 := by
  unfold countPixel at h
  split at h
  · cases h
  · split at h
    · cases h
      simpa using hlen
    · cases h

theorem histogramOf_length (img : Image) (imagePath : String) (depth : Nat) (h : Histo)
    (hh : histogramOf img imagePath depth = some h) : h.H.length = 512 := by
  unfold histogramOf at hh
  split at hh
  · cases hh
  · rename_i values sum hc
    cases hh
    have := foldlM_preserves
      (fun st y => (List.range img.width).foldlM
        (fun st x => countPixel depth st (img.At x y)) st)
      (fun st => st.1.length = 512) (List.range img.height)
      (fun st y st' hst hP => foldlM_preserves
        (fun st x => countPixel depth st (img.At x y)) (fun st => st.1.length = 512)
        (List.range img.width)
        (fun st x st' hst hP => countPixel_length depth st st' _ hst hP) st st' hst hP)
      (List.replicate 512 0, 0) (values, sum) hc (List.length_replicate _ _)
    simpa using this

theorem histogramOf_ok (img : Image) (imagePath : String) (depth : Nat)
    (hpx : ∀ x y, x < img.width → y < img.height →
      ∃ pos, binIndex depth (img.At x y) = some pos ∧ pos < 512) :
    ∃ values : List ℚ, histogramOf img imagePath depth
        = some (Histo.mk imagePath
            (values.map (fun v => v / ((img.width * img.height : Nat) : ℚ))))
      ∧ values.length = 512 ∧ (∀ v ∈ values, 0 ≤ v)
      ∧ values.sum = ((img.width * img.height : Nat) : ℚ) := by
  obtain ⟨st, hst, hlen, hnn, hsum, hn⟩ := countPixels_inv img depth hpx
  obtain ⟨values, sum⟩ := st
  simp only at hlen hnn hsum hn
  subst hn
  exact ⟨values, by simp only [histogramOf, hst], hlen, hnn, hsum⟩

theorem computeHistogram_of_decoded (decode : String → Except String Image)
    (imagePath : String) (img : Image) (depth : Nat) (hdec : decode imagePath = .ok img) :
    computeHistogram decode imagePath depth
      = match histogramOf img imagePath depth with
        | none => .error .panic
        | some h => .ok h := by
  simp [computeHistogram, hdec]

/-- C3: for a decoded image with at least one pixel and channel samples in [0, 65535],
computeHistogram at depth 3 returns a histogram of 512 non-negative bins that sum to
exactly 1. -/
theorem computeHistogram_normalized (decode : String → Except String Image)
    (imagePath : String) (img : Image) (hdec : decode imagePath = .ok img)
    (hw : 1 ≤ img.width) (hh : 1 ≤ img.height)
    (hpx : ∀ x y, x < img.width → y < img.height →
      (img.At x y).1 ≤ 65535 ∧ (img.At x y).2.1 ≤ 65535 ∧ (img.At x y).2.2 ≤ 65535) :
    ∃ h, computeHistogram decode imagePath 3 = .ok h ∧ h.Normalized := by
  obtain ⟨values, hv, hlen, hnn, hsum⟩ := histogramOf_ok img imagePath 3 (by
    intro x y hx hy
    obtain ⟨h1, h2, h3⟩ := hpx x y hx hy
    obtain ⟨pos, hp, hlt, -⟩ := binIndex_exact 3 (img.At x y) (by omega) h1 h2 h3
    exact ⟨pos, hp, by simpa using hlt⟩)
  have hpos : (0 : ℚ) < ((img.width * img.height : Nat) : ℚ) := by
    have : 0 < img.width * img.height := Nat.mul_pos hw hh
    exact_mod_cast this
  refine ⟨_, by rw [computeHistogram_of_decoded decode imagePath img 3 hdec, hv], ?_, ?_, ?_⟩
  · simpa using hlen
  · intro v hv'
    obtain ⟨u, hu, rfl⟩ := List.mem_map.mp hv'
    exact div_nonneg (hnn u hu) (le_of_lt hpos)
  · simp only [div_eq_mul_inv, List.sum_map_mul_right, List.map_id', hsum]
    exact mul_inv_cancel₀ (ne_of_gt hpos)

/-- Instance of C3 on the 2x1 red and blue image. -/
theorem computeHistogram_normalized_witness :
    1 ≤ redBlueImage.width ∧ 1 ≤ redBlueImage.height
      ∧ ∃ h, computeHistogram (fun _ => .ok redBlueImage) "q.jpg" 3 = .ok h ∧ h.Normalized :=
  ⟨by decide, by decide,
    computeHistogram_normalized (fun _ => .ok redBlueImage) "q.jpg" redBlueImage rfl
      (by decide) (by decide)
      (by
        intro x y _ _
        simp only [redBlueImage]
        split_ifs <;> simp)⟩


theorem countPixel_white_depth8 (st : List ℚ × ℚ) (h : st.1.length = 512) :
    countPixel 8 st (65535, 65535, 65535) = none := by
  have hb : binIndex 8 (65535, 65535, 65535) = some 16777215 := by decide
  simp [countPixel, hb, h]

/-- C9 (as stated, refuted): at depth 1 the histogram of a one-pixel image has 512 bins,
not 2^(3*1) = 8; at depth 8 a white pixel has bin index 16777215, which the 512-cell
array cannot store: the call panics. -/
theorem computeHistogram_bins_counterexample :
    (∃ h, computeHistogram (fun _ => .ok blackPixel) "p.jpg" 1 = .ok h
        ∧ h.H.length = 512 ∧ h.H.length ≠ 2 ^ (3 * 1))
      ∧ binIndex 8 (whitePixel.At 0 0) = some 16777215
      ∧ computeHistogram (fun _ => .ok whitePixel) "p.jpg" 8 = .error .panic := by
  refine ⟨?_, by decide, ?_⟩
  · obtain ⟨values, hv, -⟩ := histogramOf_ok blackPixel "p.jpg" 1 (by
      intro x y _ _
      exact ⟨0, (by decide : binIndex 1 (0, 0, 0) = some 0), by decide⟩)
    refine ⟨_, by rw [computeHistogram_of_decoded _ "p.jpg" blackPixel 1 rfl, hv], ?_⟩
    have := histogramOf_length blackPixel "p.jpg" 1 _ hv
    rw [this]
    exact ⟨rfl, by decide⟩
  · rw [computeHistogram_of_decoded _ "p.jpg" whitePixel 8 rfl]
    have hc : countPixels whitePixel 8 = none := by
      have h := countPixel_white_depth8 (List.replicate 512 0, 0) (List.length_replicate _ _)
      have hr : List.range 1 = [0] := rfl
      simp only [countPixels, whitePixel, hr, List.foldlM_cons, List.foldlM_nil, h,
        bind, Option.bind]
    simp only [histogramOf, hc]

/-- C9 (amended): for every depth d with 1 <= d <= 8, a histogram returned by
computeHistogram has exactly 512 bins whatever d is; for d <= 3 (samples in
[0, 65535]) the call returns a histogram, 2^(3*d) <= 512, and the bin index of every
pixel is the exact packed value, below 2^(3*d), so it is stored without wrap-around or
truncation. -/
theorem computeHistogram_bin_count (decode : String → Except String Image)
    (imagePath : String) (img : Image) (d : Nat) (hd1 : 1 ≤ d) (hd8 : d ≤ 8)
    (hdec : decode imagePath = .ok img)
    (hpx : ∀ x y, x < img.width → y < img.height →
      (img.At x y).1 ≤ 65535 ∧ (img.At x y).2.1 ≤ 65535 ∧ (img.At x y).2.2 ≤ 65535) :
    (∀ h, computeHistogram decode imagePath d = .ok h → h.H.length = 512)
      ∧ (d ≤ 3 →
          (∃ h, computeHistogram decode imagePath d = .ok h)
          ∧ 2 ^ (3 * d) ≤ 512
          ∧ ∀ x y, x < img.width → y < img.height →
              ∃ pos, binIndex d (img.At x y) = some pos ∧ pos < 2 ^ (3 * d)
                ∧ pos = ((img.At x y).1 >>> (16 - d)) * 2 ^ (2 * d)
                    + ((img.At x y).2.1 >>> (16 - d)) * 2 ^ d
                    + ((img.At x y).2.2 >>> (16 - d))) := by
  constructor
  · intro h hh
    rw [computeHistogram_of_decoded decode imagePath img d hdec] at hh
    cases hq : histogramOf img imagePath d with
    | none => simp [hq] at hh
    | some h' =>
      simp only [hq, Except.ok.injEq] at hh
      subst hh
      exact histogramOf_length img imagePath d h' hq
  · intro hd3
    have hpow : 2 ^ (3 * d) ≤ 512 := by
      have : 2 ^ (3 * d) ≤ 2 ^ 9 := Nat.pow_le_pow_right (by decide) (by omega)
      simpa using this
    have hbin : ∀ x y, x < img.width → y < img.height →
        ∃ pos, binIndex d (img.At x y) = some pos ∧ pos < 2 ^ (3 * d)
          ∧ pos = ((img.At x y).1 >>> (16 - d)) * 2 ^ (2 * d)
              + ((img.At x y).2.1 >>> (16 - d)) * 2 ^ d
              + ((img.At x y).2.2 >>> (16 - d)) := by
      intro x y hx hy
      obtain ⟨h1, h2, h3⟩ := hpx x y hx hy
      exact binIndex_exact d (img.At x y) hd8 h1 h2 h3
    refine ⟨?_, hpow, hbin⟩
    obtain ⟨values, hv, -⟩ := histogramOf_ok img imagePath d (by
      intro x y hx hy
      obtain ⟨pos, hp, hlt, -⟩ := hbin x y hx hy
      exact ⟨pos, hp, by omega⟩)
    exact ⟨_, by rw [computeHistogram_of_decoded decode imagePath img d hdec, hv]⟩

/-- Instance of the amended C9 at depth 2 on the 2x1 red and blue image. -/
theorem computeHistogram_bin_count_witness :
    1 ≤ 2 ∧ 2 ≤ 8
      ∧ (∀ h, computeHistogram (fun _ => .ok redBlueImage) "q.jpg" 2 = .ok h
          → h.H.length = 512)
      ∧ (2 ≤ 3 →
          (∃ h, computeHistogram (fun _ => .ok redBlueImage) "q.jpg" 2 = .ok h)
          ∧ 2 ^ (3 * 2) ≤ 512
          ∧ ∀ x y, x < redBlueImage.width → y < redBlueImage.height →
              ∃ pos, binIndex 2 (redBlueImage.At x y) = some pos ∧ pos < 2 ^ (3 * 2)
                ∧ pos = ((redBlueImage.At x y).1 >>> (16 - 2)) * 2 ^ (2 * 2)
                    + ((redBlueImage.At x y).2.1 >>> (16 - 2)) * 2 ^ 2
                    + ((redBlueImage.At x y).2.2 >>> (16 - 2))) :=
  ⟨by decide, by decide,
    computeHistogram_bin_count (fun _ => .ok redBlueImage) "q.jpg" redBlueImage 2
      (by decide) (by decide) rfl
      (by
        intro x y _ _
        simp only [redBlueImage]
        split_ifs <;> simp)⟩


/-! ## Histogram intersection -/

theorem foldl_add_eq_sum_range (f : Nat → ℚ) (n : Nat) :
    (List.range n).foldl (fun result i => result + f i) 0 = ∑ i in Finset.range n, f i := by
  induction n with
  | zero => simp
  | succ n ih => rw [List.range_succ, List.foldl_append, ih, Finset.sum_range_succ]; rfl

theorem compareHistograms_eq_sum (query data : Histo) :
    compareHistograms query data
      = ∑ i in Finset.range data.H.length, min (query.H.getD i 0) (data.H.getD i 0) :=
  foldl_add_eq_sum_range _ _

theorem sum_eq_sum_range_getD (l : List ℚ) :
    l.sum = ∑ i in Finset.range l.length, l.getD i 0 := by
  induction l with
  | nil => simp
  | cons a l ih =>
    rw [List.length_cons, Finset.sum_range_succ', List.sum_cons, ih]
    simp [add_comm]

theorem pointHisto_normalized : pointHisto.Normalized := by
  refine ⟨by simp only [pointHisto, List.length_cons, List.length_replicate], ?_, ?_⟩
  · intro v hv
    simp only [pointHisto, List.mem_cons, List.mem_replicate] at hv
    rcases hv with rfl | ⟨-, rfl⟩ <;> norm_num
  · simp only [pointHisto, List.sum_cons, List.sum_replicate, smul_zero]
    norm_num

theorem splitHisto_normalized : splitHisto.Normalized := by
  refine ⟨by simp only [splitHisto, List.length_cons, List.length_replicate], ?_, ?_⟩
  · intro v hv
    simp only [splitHisto, List.mem_cons, List.mem_replicate] at hv
    rcases hv with rfl | rfl | ⟨-, rfl⟩ <;> norm_num
  · simp only [splitHisto, List.sum_cons, List.sum_replicate, smul_zero]
    norm_num

theorem compareHistograms_eq_one_imp_le (a b : Histo) (ha : a.Normalized)
    (hb : b.Normalized) (h : compareHistograms a b = 1) :
    ∀ i, i < 512 → a.H.getD i 0 ≤ b.H.getD i 0 := by
  obtain ⟨hla, hna, hsa⟩ := ha
  obtain ⟨hlb, hnb, -⟩ := hb
  rw [compareHistograms_eq_sum, hlb] at h
  rw [sum_eq_sum_range_getD a.H, hla] at hsa
  have hz : ∑ i in Finset.range 512, (a.H.getD i 0 - min (a.H.getD i 0) (b.H.getD i 0)) = 0 := by
    rw [Finset.sum_sub_distrib, hsa, h, sub_self]
  have hall := (Finset.sum_eq_zero_iff_of_nonneg
    (fun i _ => sub_nonneg.mpr (min_le_left (a.H.getD i 0) (b.H.getD i 0)))).mp hz
  intro i hi
  have := hall i (Finset.mem_range.mpr hi)
  have hmin : a.H.getD i 0 = min (a.H.getD i 0) (b.H.getD i 0) := by linarith
  rw [hmin]
  exact min_le_right _ _

theorem compareHistograms_comm_of_length (a b : Histo) (h : a.H.length = b.H.length) :
    compareHistograms a b = compareHistograms b a := by
  rw [compareHistograms_eq_sum, compareHistograms_eq_sum, h]
  exact Finset.sum_congr rfl (fun i _ => min_comm _ _)

/-- C5 (amended): in exact arithmetic, for histograms a and b with 512 non-negative
bins that sum to 1, compareHistograms(a, b) = 1 exactly when a.H[i] = b.H[i] for every
bin i; in particular compareHistograms(a, a) = 1. -/
theorem compareHistograms_eq_one_iff (a b : Histo) (ha : a.Normalized) (hb : b.Normalized) :
    (compareHistograms a b = 1 ↔ ∀ i, i < 512 → a.H.getD i 0 = b.H.getD i 0)
      ∧ compareHistograms a a = 1 := by
  have hself : ∀ c : Histo, c.Normalized → compareHistograms c c = 1 := by
    intro c hc
    rw [compareHistograms_eq_sum]
    simp only [min_self]
    rw [← sum_eq_sum_range_getD]
    exact hc.2.2
  refine ⟨⟨?_, ?_⟩, hself a ha⟩
  · intro h i hi
    have h' : compareHistograms b a = 1 := by
      rw [compareHistograms_comm_of_length b a (by rw [ha.1, hb.1])]
      exact h
    exact le_antisymm (compareHistograms_eq_one_imp_le a b ha hb h i hi)
      (compareHistograms_eq_one_imp_le b a hb ha h' i hi)
  · intro h
    rw [compareHistograms_eq_sum, hb.1]
    rw [← hself b hb, compareHistograms_eq_sum, hb.1]
    exact Finset.sum_congr rfl (fun i hi => by rw [h i (Finset.mem_range.mp hi)])

/-- Instance of the amended C5 on the point histogram and the split histogram. -/
theorem compareHistograms_eq_one_iff_witness :
    pointHisto.Normalized ∧ splitHisto.Normalized
      ∧ (compareHistograms pointHisto splitHisto = 1
          ↔ ∀ i, i < 512 → pointHisto.H.getD i 0 = splitHisto.H.getD i 0)
      ∧ compareHistograms pointHisto pointHisto = 1 :=
  ⟨pointHisto_normalized, splitHisto_normalized,
    compareHistograms_eq_one_iff pointHisto splitHisto pointHisto_normalized
      splitHisto_normalized⟩

/-- C6: for histograms a and b with 512 non-negative bins, compareHistograms(a, b) = 0
exactly when no bin index i has a.H[i] > 0 and b.H[i] > 0. -/
theorem compareHistograms_eq_zero_iff (a b : Histo) (_hla : a.WellFormed) (hlb : b.WellFormed)
    (hna : ∀ v ∈ a.H, 0 ≤ v) (hnb : ∀ v ∈ b.H, 0 ≤ v) :
    compareHistograms a b = 0
      ↔ ¬ ∃ i, i < 512 ∧ 0 < a.H.getD i 0 ∧ 0 < b.H.getD i 0 := by
  rw [compareHistograms_eq_sum, hlb,
    Finset.sum_eq_zero_iff_of_nonneg
      (fun i _ => le_min (getD_nonneg a.H hna i) (getD_nonneg b.H hnb i))]
  constructor
  · rintro h ⟨i, hi, hpa, hpb⟩
    have := h i (Finset.mem_range.mpr hi)
    have hpos : 0 < min (a.H.getD i 0) (b.H.getD i 0) := lt_min hpa hpb
    linarith
  · intro h i hi
    by_contra hne
    apply h
    have hpos : 0 < min (a.H.getD i 0) (b.H.getD i 0) :=
      lt_of_le_of_ne (le_min (getD_nonneg a.H hna i) (getD_nonneg b.H hnb i)) (Ne.symm hne)
    exact ⟨i, Finset.mem_range.mp hi, lt_of_lt_of_le hpos (min_le_left _ _),
      lt_of_lt_of_le hpos (min_le_right _ _)⟩

/-- Instance of C6 on the point histogram and the split histogram. -/
theorem compareHistograms_eq_zero_iff_witness :
    pointHisto.WellFormed ∧ splitHisto.WellFormed
      ∧ (compareHistograms pointHisto splitHisto = 0
          ↔ ¬ ∃ i, i < 512 ∧ 0 < pointHisto.H.getD i 0 ∧ 0 < splitHisto.H.getD i 0) :=
  ⟨pointHisto_normalized.1, splitHisto_normalized.1,
    compareHistograms_eq_zero_iff pointHisto splitHisto pointHisto_normalized.1
      splitHisto_normalized.1 pointHisto_normalized.2.1 splitHisto_normalized.2.1⟩

/-- C7: compareHistograms is symmetric on histograms (values of the 512-bin type):
compareHistograms(a, b) = compareHistograms(b, a). -/
theorem compareHistograms_symm (a b : Histo) (ha : a.WellFormed) (hb : b.WellFormed) :
    compareHistograms a b = compareHistograms b a :=
  compareHistograms_comm_of_length a b (by rw [ha, hb])

/-- Instance of C7 on the point histogram and the split histogram. -/
theorem compareHistograms_symm_witness :
    pointHisto.WellFormed ∧ splitHisto.WellFormed
      ∧ compareHistograms pointHisto splitHisto = compareHistograms splitHisto pointHisto :=
  ⟨pointHisto_normalized.1, splitHisto_normalized.1,
    compareHistograms_symm pointHisto splitHisto pointHisto_normalized.1
      splitHisto_normalized.1⟩

/-! ## KNN: order of offers, the full-list step, the stable sort -/

theorem offerSorted_comm_of_ne (c₁ c₂ : intersection) (l : List intersection)
    (hne : c₁.similarity ≠ c₂.similarity) :
    offerSorted c₁ (offerSorted c₂ l) = offerSorted c₂ (offerSorted c₁ l) := by
  unfold offerSorted
  induction l with
  | nil =>
    rcases lt_or_gt_of_ne hne with h | h
    · have h' : ¬ c₁.similarity > c₂.similarity := not_lt.mpr (le_of_lt h)
      have h'' : c₂.similarity > c₁.similarity := h
      simp [List.orderedInsert, scoreGT, h', h'']
    · have h' : ¬ c₂.similarity > c₁.similarity := not_lt.mpr (le_of_lt h)
      have h'' : c₁.similarity > c₂.similarity := h
      simp [List.orderedInsert, scoreGT, h', h'']
  | cons b l ih =>
    rcases lt_or_gt_of_ne hne with h | h
    · have h12 : ¬ c₁.similarity > c₂.similarity := not_lt.mpr (le_of_lt h)
      have h21 : c₂.similarity > c₁.similarity := h
      by_cases h1 : c₁.similarity > b.similarity <;> by_cases h2 : c₂.similarity > b.similarity
      all_goals first
        | (simp [List.orderedInsert, scoreGT, h1, h2, h12, h21, ih]; done)
        | (exfalso; simp only [gt_iff_lt, not_lt] at *; linarith)
    · have h21 : ¬ c₂.similarity > c₁.similarity := not_lt.mpr (le_of_lt h)
      have h12 : c₁.similarity > c₂.similarity := h
      by_cases h1 : c₁.similarity > b.similarity <;> by_cases h2 : c₂.similarity > b.similarity
      all_goals first
        | (simp [List.orderedInsert, scoreGT, h1, h2, h12, h21, ih]; done)
        | (exfalso; simp only [gt_iff_lt, not_lt] at *; linarith)

theorem map_similarity_offerSorted (c : intersection) (l : List intersection) :
    (offerSorted c l).map intersection.similarity
      = List.orderedInsert (fun a b : ℚ => a > b) c.similarity
          (l.map intersection.similarity) :=
  List.map_orderedInsert scoreGT (fun a b : ℚ => a > b) intersection.similarity l c
    (fun _ _ => Iff.rfl) (fun _ _ => Iff.rfl)

theorem map_similarity_offerSorted_comm (c₁ c₂ : intersection) (l : List intersection) :
    (offerSorted c₁ (offerSorted c₂ l)).map intersection.similarity
      = (offerSorted c₂ (offerSorted c₁ l)).map intersection.similarity := by
  by_cases hne : c₁.similarity = c₂.similarity
  · simp only [map_similarity_offerSorted, hne]
  · rw [offerSorted_comm_of_ne c₁ c₂ l hne]

theorem KNN_elems_length (s : Slice) (c : intersection) (h : s.elems.length = 5) :
    (KNN s c).elems.length = 5 := by
  rw [KNN_elems_of_length_eq s c h]
  simp [offerSorted, List.orderedInsert_length, h]

theorem KNN_KNN_elems (s : Slice) (c₁ c₂ : intersection) (h : s.elems.length = 5) :
    (KNN (KNN s c₁) c₂).elems = (offerSorted c₂ (offerSorted c₁ s.elems)).take 5 := by
  rw [KNN_elems_of_length_eq (KNN s c₁) c₂ (KNN_elems_length s c₁ h),
    KNN_elems_of_length_eq s c₁ h]
  exact take_orderedInsert_take c₂ 5 _

/-- C15: for every 5-entry list (in particular one sorted by descending similarity) and
candidates c1, c2, offering c1 then c2 and offering c2 then c1 give lists with the same
similarity at every position, and the same lists, names included, when the similarities
of c1, c2 and the five entries are pairwise distinct. -/
theorem KNN_comm_up_to_ties (s : Slice) (c₁ c₂ : intersection) (h : s.elems.length = 5) :
    (KNN (KNN s c₁) c₂).elems.map intersection.similarity
        = (KNN (KNN s c₂) c₁).elems.map intersection.similarity
      ∧ (List.Pairwise (fun x y : ℚ => x ≠ y)
            ((c₁ :: c₂ :: s.elems).map intersection.similarity)
          → (KNN (KNN s c₁) c₂).elems = (KNN (KNN s c₂) c₁).elems) := by
  rw [KNN_KNN_elems s c₁ c₂ h, KNN_KNN_elems s c₂ c₁ h]
  constructor
  · rw [List.map_take, List.map_take, map_similarity_offerSorted_comm]
  · intro hd
    have hne : c₁.similarity ≠ c₂.similarity := by
      simp only [List.map_cons, List.pairwise_cons] at hd
      exact hd.1 _ (by simp)
    rw [offerSorted_comm_of_ne c₁ c₂ s.elems hne]

/-- Instance of C15 on a sorted five-entry list and two candidates of distinct scores. -/
theorem KNN_comm_up_to_ties_witness :
    (⟨[⟨"a", 9⟩, ⟨"b", 7⟩, ⟨"c", 5⟩, ⟨"d", 3⟩, ⟨"e", 1⟩], []⟩ : Slice).elems.length = 5
      ∧ ((KNN (KNN ⟨[⟨"a", 9⟩, ⟨"b", 7⟩, ⟨"c", 5⟩, ⟨"d", 3⟩, ⟨"e", 1⟩], []⟩ ⟨"x", 8⟩)
            ⟨"y", 4⟩).elems.map intersection.similarity
          = (KNN (KNN ⟨[⟨"a", 9⟩, ⟨"b", 7⟩, ⟨"c", 5⟩, ⟨"d", 3⟩, ⟨"e", 1⟩], []⟩ ⟨"y", 4⟩)
            ⟨"x", 8⟩).elems.map intersection.similarity
        ∧ (List.Pairwise (fun x y : ℚ => x ≠ y)
              ((⟨"x", 8⟩ :: ⟨"y", 4⟩ ::
                (⟨[⟨"a", 9⟩, ⟨"b", 7⟩, ⟨"c", 5⟩, ⟨"d", 3⟩, ⟨"e", 1⟩], []⟩ : Slice).elems).map
                intersection.similarity)
            → (KNN (KNN ⟨[⟨"a", 9⟩, ⟨"b", 7⟩, ⟨"c", 5⟩, ⟨"d", 3⟩, ⟨"e", 1⟩], []⟩ ⟨"x", 8⟩)
                ⟨"y", 4⟩).elems
              = (KNN (KNN ⟨[⟨"a", 9⟩, ⟨"b", 7⟩, ⟨"c", 5⟩, ⟨"d", 3⟩, ⟨"e", 1⟩], []⟩ ⟨"y", 4⟩)
                ⟨"x", 8⟩).elems)) :=
  ⟨rfl, KNN_comm_up_to_ties _ _ _ rfl⟩

/-- C17: on a list of exactly 5 entries (sorted or not), with p the smallest index in
0..4 whose entry has a similarity strictly below the candidate's, KNN yields
old[0..p-1], the candidate, old[p..3]; when no such index exists (the candidate's
similarity is at most every entry's) the list is unchanged. -/
theorem KNN_full_step (s : Slice) (c : intersection) (h : s.elems.length = 5) :
    (∀ p, p < 5 → (s.elems.getD p intersection.zero).similarity < c.similarity →
        (∀ q, q < p → ¬ (s.elems.getD q intersection.zero).similarity < c.similarity) →
        (KNN s c).elems = s.elems.take p ++ c :: (s.elems.drop p).take (4 - p))
      ∧ ((∀ q, q < 5 → c.similarity ≤ (s.elems.getD q intersection.zero).similarity) →
        (KNN s c).elems = s.elems) := by
  obtain ⟨elems, spare⟩ := s
  simp only at h ⊢
  match elems, h with
  | [a0, a1, a2, a3, a4], _ =>
    constructor
    · intro p hp hlt hmin
      have h0 := hmin 0
      have h1 := hmin 1
      have h2 := hmin 2
      have h3 := hmin 3
      interval_cases p <;>
        simp_all [KNN, KNN.insertFull, KNN.findPos, KNN.shift] <;>
        (split_ifs <;> first | rfl | (exfalso; linarith))
    · intro hall
      have h0 := not_lt.mpr (hall 0 (by decide))
      have h1 := not_lt.mpr (hall 1 (by decide))
      have h2 := not_lt.mpr (hall 2 (by decide))
      have h3 := not_lt.mpr (hall 3 (by decide))
      have h4 := not_lt.mpr (hall 4 (by decide))
      simp only [List.getD_cons_zero, List.getD_cons_succ] at h0 h1 h2 h3 h4
      simp [KNN, KNN.insertFull, KNN.findPos, h0, h1, h2, h3, h4]

/-- Instance of C17: a candidate of score 6 offered to the list 9, 7, 5, 3, 1. -/
theorem KNN_full_step_witness :
    (⟨[⟨"a", 9⟩, ⟨"b", 7⟩, ⟨"c", 5⟩, ⟨"d", 3⟩, ⟨"e", 1⟩], []⟩ : Slice).elems.length = 5
      ∧ (KNN ⟨[⟨"a", 9⟩, ⟨"b", 7⟩, ⟨"c", 5⟩, ⟨"d", 3⟩, ⟨"e", 1⟩], []⟩ ⟨"x", 6⟩).elems
          = [⟨"a", 9⟩, ⟨"b", 7⟩, ⟨"x", 6⟩, ⟨"c", 5⟩, ⟨"d", 3⟩] :=
  ⟨rfl, (KNN_full_step ⟨[⟨"a", 9⟩, ⟨"b", 7⟩, ⟨"c", 5⟩, ⟨"d", 3⟩, ⟨"e", 1⟩], []⟩ ⟨"x", 6⟩
      rfl).1 2 (by decide) (by decide) (by decide)⟩

theorem offerAll_initial_positive (offers : List intersection) :
    (offerAll initialResults offers).elems
      = (sortDesc (offers.filter (fun c => decide (0 < c.similarity)))
          ++ List.replicate 5 intersection.zero).take 5 := by
  rw [offerAll_initial_elems, sortDesc_replicate_zero_append, ← List.append_assoc]
  exact List.take_append_of_le_length (by simp)

theorem offerAll_initial_nonneg (offers : List intersection) :
    ∀ e ∈ (offerAll initialResults offers).elems, 0 ≤ e.similarity := by
  intro e he
  rw [offerAll_initial_positive] at he
  rcases List.mem_append.mp (List.mem_of_mem_take he) with h | h
  · rw [mem_sortDesc, List.mem_filter] at h
    have : 0 < e.similarity := by simpa using h.2
    exact le_of_lt this
  · rw [List.eq_of_mem_replicate h]
    exact le_refl _

theorem offerAll_initial_length (offers : List intersection) :
    (offerAll initialResults offers).elems.length = 5 := by
  rw [offerAll_initial_elems, List.length_take, sortDesc, List.length_insertionSort,
    List.length_append, List.length_replicate]
  omega

theorem offerSorted_of_le_all (c : intersection) (l : List intersection)
    (h : ∀ e ∈ l, c.similarity ≤ e.similarity) : offerSorted c l = l ++ [c] := by
  unfold offerSorted
  induction l with
  | nil => rfl
  | cons b l ih =>
    have hb : ¬ scoreGT c b := not_lt.mpr (h b (by simp))
    simp [List.orderedInsert, hb, ih (fun e he => h e (by simp [he]))]

theorem offerAll_append_singleton (s : Slice) (offers : List intersection) (c : intersection) :
    offerAll s (offers ++ [c]) = KNN (offerAll s offers) c := by
  simp [offerAll, List.foldl_append]

/-- C20: folding KNN over any sequence S from main's list Z of five zero-valued entries
gives the first 5 entries of the stable descending sort of Z followed by S; offering a
candidate of similarity 0 never changes the list; and when fewer than 5 offered
candidates have positive similarity the list is those candidates in sorted order
followed by zero-valued entries. -/
theorem KNN_fold_stable_sort (offers : List intersection) :
    (offerAll initialResults offers).elems
        = (sortDesc (List.replicate 5 intersection.zero ++ offers)).take 5
      ∧ (∀ c : intersection, c.similarity = 0 →
          (offerAll initialResults (offers ++ [c])).elems
            = (offerAll initialResults offers).elems)
      ∧ ((offers.filter (fun c => decide (0 < c.similarity))).length < 5 →
          (offerAll initialResults offers).elems
            = sortDesc (offers.filter (fun c => decide (0 < c.similarity)))
              ++ List.replicate
                  (5 - (offers.filter (fun c => decide (0 < c.similarity))).length)
                  intersection.zero) := by
  refine ⟨offerAll_initial_elems offers, ?_, ?_⟩
  · intro c hc
    rw [offerAll_append_singleton,
      KNN_elems_of_length_eq _ c (offerAll_initial_length offers),
      offerSorted_of_le_all c _ (by
        intro e he
        rw [hc]
        exact offerAll_initial_nonneg offers e he)]
    exact List.take_append_of_le_length (le_of_eq (offerAll_initial_length offers).symm)
      |>.trans (List.take_of_length_le (le_of_eq (offerAll_initial_length offers)))
  · intro hlt
    rw [offerAll_initial_positive, List.take_append_eq_append_take, List.take_replicate]
    have hlen : (sortDesc (offers.filter (fun c => decide (0 < c.similarity)))).length
        = (offers.filter (fun c => decide (0 < c.similarity))).length :=
      List.length_insertionSort _ _
    rw [List.take_of_length_le (by omega), hlen]
    congr 2
    omega

/-- Instance of C20: one candidate of similarity 1 and one of similarity 0. -/
theorem KNN_fold_stable_sort_witness :
    (([⟨"a", 1⟩, ⟨"b", 0⟩] : List intersection).filter
        (fun c => decide (0 < c.similarity))).length < 5
      ∧ (offerAll initialResults [⟨"a", 1⟩, ⟨"b", 0⟩]).elems
        = sortDesc (([⟨"a", 1⟩, ⟨"b", 0⟩] : List intersection).filter
            (fun c => decide (0 < c.similarity)))
          ++ List.replicate
              (5 - (([⟨"a", 1⟩, ⟨"b", 0⟩] : List intersection).filter
                (fun c => decide (0 < c.similarity))).length)
              intersection.zero :=
  ⟨by decide, (KNN_fold_stable_sort [⟨"a", 1⟩, ⟨"b", 0⟩]).2.2 (by decide)⟩

/-! ## Bin index and shard sizes -/

theorem shiftRight_lt_two_pow (v d : Nat) (hd : d ≤ 16) (hv : v ≤ 65535) :
    v >>> (16 - d) < 2 ^ d := by
  rw [Nat.shiftRight_eq_div_pow]
  apply Nat.div_lt_of_lt_mul
  have : 2 ^ (16 - d) * 2 ^ d = 2 ^ 16 := by
    rw [← Nat.pow_add]
    congr 1
    omega
  rw [this]
  omega

theorem packed_add_eq_or (r g b d : Nat) (hg : g < 2 ^ d) (hb : b < 2 ^ d) :
    r * 2 ^ (2 * d) + g * 2 ^ d + b = (r <<< (2 * d)) ||| (g <<< d) ||| b := by
  have hgd : g * 2 ^ d < 2 ^ (2 * d) := by
    have : 2 ^ (2 * d) = 2 ^ d * 2 ^ d := by rw [← Nat.pow_add]; congr 1; omega
    rw [this]
    exact Nat.mul_lt_mul_of_pos_right hg (Nat.two_pow_pos d)
  have h1 : r * 2 ^ (2 * d) + g * 2 ^ d = (r <<< (2 * d)) ||| (g <<< d) := by
    rw [Nat.shiftLeft_eq, Nat.shiftLeft_eq, Nat.mul_comm r, Nat.mul_add_lt_is_or hgd r]
  have h2 : r * 2 ^ (2 * d) + g * 2 ^ d = 2 ^ d * (r * 2 ^ d + g) := by
    have : 2 ^ (2 * d) = 2 ^ d * 2 ^ d := by rw [← Nat.pow_add]; congr 1; omega
    rw [this]
    ring
  rw [← h1, h2, Nat.mul_add_lt_is_or hb]

/-- C18: for 1 <= d <= 8 and channel samples in [0, 65535], with r, g, b the samples
shifted right by 16 - d, the position computed by computeHistogram is
(r << 2d) + (g << d) + b without wrap-around, equals the packing
(r << 2d) | (g << d) | b, and is below 2^(3d); at depth 3 it is below 512 and the
write values[pos] on the 512-cell array succeeds. -/
theorem binIndex_packed (d : Nat) (px : Nat × Nat × Nat) (hd1 : 1 ≤ d) (hd8 : d ≤ 8)
    (h1 : px.1 ≤ 65535) (h2 : px.2.1 ≤ 65535) (h3 : px.2.2 ≤ 65535) :
    ∃ pos, binIndex d px = some pos
      ∧ pos = ((px.1 >>> (16 - d)) <<< (2 * d)) + ((px.2.1 >>> (16 - d)) <<< d)
          + (px.2.2 >>> (16 - d))
      ∧ pos = ((px.1 >>> (16 - d)) <<< (2 * d)) ||| ((px.2.1 >>> (16 - d)) <<< d)
          ||| (px.2.2 >>> (16 - d))
      ∧ pos < 2 ^ (3 * d)
      ∧ (d = 3 → pos < 512
          ∧ ∀ st : List ℚ × ℚ, st.1.length = 512 → (countPixel d st px).isSome) := by
  obtain ⟨pos, hpos, hlt, hex⟩ := binIndex_exact d px hd8 h1 h2 h3
  refine ⟨pos, hpos, ?_, ?_, hlt, ?_⟩
  · rw [hex, Nat.shiftLeft_eq, Nat.shiftLeft_eq]
  · rw [hex]
    exact packed_add_eq_or _ _ _ d (shiftRight_lt_two_pow _ d (by omega) h2)
      (shiftRight_lt_two_pow _ d (by omega) h3)
  · intro hd3
    subst hd3
    have h512 : pos < 512 := by simpa using hlt
    refine ⟨h512, ?_⟩
    intro st hst
    simp [countPixel, hpos, hst, h512]

/-- Instance of C18: a pure red pixel at depth 3 falls in bin 448. -/
theorem binIndex_packed_witness :
    1 ≤ 3 ∧ 3 ≤ 8 ∧ binIndex 3 (65535, 0, 0) = some 448 ∧
      ∃ pos, binIndex 3 (65535, 0, 0) = some pos
        ∧ pos = (((65535, 0, 0) : Nat × Nat × Nat).1 >>> (16 - 3)) <<< (2 * 3)
            + ((((65535, 0, 0) : Nat × Nat × Nat).2.1 >>> (16 - 3)) <<< 3)
            + (((65535, 0, 0) : Nat × Nat × Nat).2.2 >>> (16 - 3))
        ∧ pos = (((65535, 0, 0) : Nat × Nat × Nat).1 >>> (16 - 3)) <<< (2 * 3)
            ||| ((((65535, 0, 0) : Nat × Nat × Nat).2.1 >>> (16 - 3)) <<< 3)
            ||| (((65535, 0, 0) : Nat × Nat × Nat).2.2 >>> (16 - 3))
        ∧ pos < 2 ^ (3 * 3)
        ∧ (3 = 3 → pos < 512
            ∧ ∀ st : List ℚ × ℚ, st.1.length = 512 →
                (countPixel 3 st (65535, 0, 0)).isSome) :=
  ⟨by decide, by decide, by decide,
    binIndex_packed 3 (65535, 0, 0) (by decide) (by decide) (by decide) (by decide)
      (by decide)⟩

theorem shardFiles_get (filenames : List String) :
    ∃ a, shardFiles filenames = some a ∧ a.length = 16
      ∧ ∀ j, j < 16 → a[j]? = some
          ((filenames.drop (j * (filenames.length / 16))).take
            ((shardBounds 16 (filenames.length / 16) (filenames.length % 16) j).2
              - j * (filenames.length / 16))) := by
  have hN : 16 * (filenames.length / 16) + filenames.length % 16 = filenames.length :=
    Nat.div_add_mod _ 16
  obtain ⟨r, hr, hlen, -, hget⟩ :=
    shardLoop_spec filenames 16 (filenames.length / 16) (filenames.length % 16) hN
      16 0 [] (by simp) rfl (by simp) (by intro j hj; omega)
  refine ⟨r, hr, hlen, ?_⟩
  intro j hj
  rw [hget j hj]
  have hle := shardBounds_snd_le 16 _ _ filenames.length j hN hj
  have hlo := shardBounds_fst_le_snd 16 (filenames.length / 16) (filenames.length % 16) j
  rw [shardBounds_fst] at hlo
  simp only [sliceRange, hle, hlo, and_self, if_true, shardBounds_fst]

/-- C19: main cuts a list of N file names into 16 shards; each of the first 15 has
exactly N / 16 entries, namely the list positions from i * (N / 16) up to but excluding
(i + 1) * (N / 16), and the last has exactly N / 16 + N % 16 entries. -/
theorem shardFiles_sizes (filenames : List String) :
    ∃ a, shardFiles filenames = some a ∧ a.length = 16
      ∧ (∀ i, i < 15 → ∃ shard, a[i]? = some shard
          ∧ shard.length = filenames.length / 16
          ∧ shard = (filenames.drop (i * (filenames.length / 16))).take
              (filenames.length / 16)
          ∧ ∀ k, k < filenames.length / 16 →
              shard[k]? = filenames[i * (filenames.length / 16) + k]?)
      ∧ (∃ last, a[15]? = some last
          ∧ last.length = filenames.length / 16 + filenames.length % 16
          ∧ last = filenames.drop (15 * (filenames.length / 16))) := by
  obtain ⟨a, ha, hlen, hget⟩ := shardFiles_get filenames
  have hN : 16 * (filenames.length / 16) + filenames.length % 16 = filenames.length :=
    Nat.div_add_mod _ 16
  refine ⟨a, ha, hlen, ?_, ?_⟩
  · intro i hi
    have hb : (shardBounds 16 (filenames.length / 16) (filenames.length % 16) i).2
        - i * (filenames.length / 16) = filenames.length / 16 := by
      rw [shardBounds_snd, if_neg (by omega)]
      omega
    have hmul : (i + 1) * (filenames.length / 16) ≤ 16 * (filenames.length / 16) :=
      Nat.mul_le_mul_right _ (by omega)
    have hmul' : (i + 1) * (filenames.length / 16)
        = i * (filenames.length / 16) + filenames.length / 16 := by ring
    refine ⟨_, hget i (by omega), ?_, ?_, ?_⟩
    · rw [hb, List.length_take, List.length_drop]
      omega
    · rw [hb]
    · intro k hk
      rw [hb, List.getElem?_take_of_lt hk, List.getElem?_drop]
  · have hb : (shardBounds 16 (filenames.length / 16) (filenames.length % 16) 15).2
        - 15 * (filenames.length / 16)
        = filenames.length / 16 + filenames.length % 16 := by
      rw [shardBounds_snd, if_pos (by decide)]
      omega
    refine ⟨_, hget 15 (by decide), ?_, ?_⟩
    · rw [hb, List.length_take, List.length_drop]
      omega
    · rw [hb]
      apply List.take_of_length_le
      rw [List.length_drop]
      omega

/-! ## Producers -/

theorem redBlueImage_samples (x y : Nat) :
    ∃ pos, binIndex 3 (redBlueImage.At x y) = some pos ∧ pos < 512 := by
  simp only [redBlueImage]
  split_ifs
  · exact ⟨448, by decide, by decide⟩
  · exact ⟨7, by decide, by decide⟩

theorem computeHistogram_redBlue (decode : String → Except String Image) (imagePath : String)
    (hdec : decode imagePath = .ok redBlueImage) :
    ∃ h, computeHistogram decode imagePath 3 = .ok h := by
  obtain ⟨values, hv, -⟩ := histogramOf_ok redBlueImage imagePath 3
    (fun x y _ _ => redBlueImage_samples x y)
  exact ⟨_, by rw [computeHistogram_of_decoded decode imagePath redBlueImage 3 hdec, hv]⟩

/-- C12 (the code at the failing input): with `bad.jpg` failing to decode between two
good files, the producer sends the histogram of the first file only and returns
without closing the channel, although the third file can be extracted. -/
theorem computeHistograms_stops_at_failure :
    ∃ ha hc, computeHistogram sampleDecode "a.jpg" 3 = .ok ha
      ∧ computeHistogram sampleDecode "c.jpg" 3 = .ok hc
      ∧ computeHistogram sampleDecode "bad.jpg" 3
          = .error (.returned "image: unknown format")
      ∧ computeHistograms sampleDecode ["a.jpg", "bad.jpg", "c.jpg"] 3
          = some ⟨[ha], false⟩ := by
  obtain ⟨ha, hha⟩ := computeHistogram_redBlue sampleDecode "a.jpg"
    (by simp [sampleDecode])
  obtain ⟨hc, hhc⟩ := computeHistogram_redBlue sampleDecode "c.jpg"
    (by simp [sampleDecode])
  have hbad : computeHistogram sampleDecode "bad.jpg" 3
      = .error (.returned "image: unknown format") := by
    simp [computeHistogram, sampleDecode]
  refine ⟨ha, hc, hha, hhc, hbad, ?_⟩
  simp only [computeHistograms, computeHistograms.loop, hha, hbad, List.nil_append]

/-! ## The search of `main` -/

theorem shardFiles_nil : shardFiles [] = some (List.replicate 16 []) := by decide

theorem produceAll_replicate_nil (decode : String → Except String Image) (depth n : Nat)
    (rest : List (List String)) (es : List Emission)
    (h : produceAll decode depth rest = some es) :
    produceAll decode depth (List.replicate n [] ++ rest)
      = some (List.replicate n ⟨[], true⟩ ++ es) := by
  induction n with
  | zero => simpa using h
  | succ n ih =>
    simp only [List.replicate_succ, List.cons_append, produceAll, computeHistograms,
      computeHistograms.loop, List.append_eq, ih]

theorem search_nil (decode : String → Except String Image)
    (schedule : List (List intersection) → List intersection)
    (queryPath : String) (q : Histo)
    (hs : ∀ parts, (schedule parts).Perm parts.flatten)
    (hq : computeHistogram decode queryPath 3 = .ok q) :
    search decode schedule queryPath []
      = .finished (List.replicate 5 intersection.zero) := by
  have hp := produceAll_replicate_nil decode 3 16 [] [] rfl
  simp only [List.append_nil] at hp
  have hsched : schedule (List.replicate 16 []) = [] := by
    have := hs (List.replicate 16 [])
    have hflat : (List.replicate 16 ([] : List intersection)).flatten = [] := by decide
    rw [hflat] at this
    exact List.Perm.eq_nil this
  have hall : (List.replicate 16 (⟨[], true⟩ : Emission)).all (fun e => e.closed) = true := by
    decide
  have hmap : (List.replicate 16 (⟨[], true⟩ : Emission)).map
      (fun e => consumerOffers q e.sent) = List.replicate 16 [] := by
    simp [consumerOffers]
  simp only [search, hq, shardFiles_nil, hp, hall, hmap, hsched, if_true]
  rfl

/-- C13 (as stated, refuted): with a query that decodes and an empty file list the
search ends normally, with the five zero-valued entries as its result list; it is
not an error. -/
theorem search_empty_corpus_counterexample :
    search (fun _ => .ok redBlueImage) List.flatten "q.jpg" []
        = .finished (List.replicate 5 intersection.zero)
      ∧ (∀ msg, search (fun _ => .ok redBlueImage) List.flatten "q.jpg" []
          ≠ .queryError msg)
      ∧ search (fun _ => .ok redBlueImage) List.flatten "q.jpg" [] ≠ .crashed := by
  obtain ⟨q, hq⟩ := computeHistogram_redBlue (fun _ => .ok redBlueImage) "q.jpg" rfl
  have h := search_nil (fun _ => .ok redBlueImage) List.flatten "q.jpg" q
    (fun parts => List.Perm.refl _) hq
  rw [h]
  refine ⟨rfl, ?_, ?_⟩
  · intro msg hm
    cases hm
  · intro hc
    cases hc

/-- C13 (amended): when the filtered file list is empty and the query histogram is
extracted, the search completes without an error, whatever the order of the consumers:
the 16 shards are empty, no candidate is offered, and the result list is the five
zero-valued entries of the initial list. -/
theorem search_empty_corpus (decode : String → Except String Image)
    (schedule : List (List intersection) → List intersection)
    (queryPath : String) (q : Histo)
    (hs : ∀ parts, (schedule parts).Perm parts.flatten)
    (hq : computeHistogram decode queryPath 3 = .ok q) :
    shardFiles [] = some (List.replicate 16 [])
      ∧ search decode schedule queryPath []
        = .finished (List.replicate 5 intersection.zero) :=
  ⟨shardFiles_nil, search_nil decode schedule queryPath q hs hq⟩

/-- Instance of the amended C13 with the sample decoder and the query `a.jpg`. -/
theorem search_empty_corpus_witness :
    shardFiles [] = some (List.replicate 16 [])
      ∧ search sampleDecode List.flatten "a.jpg" []
        = .finished (List.replicate 5 intersection.zero) := by
  obtain ⟨q, hq⟩ := computeHistogram_redBlue sampleDecode "a.jpg" (by simp [sampleDecode])
  exact search_empty_corpus sampleDecode List.flatten "a.jpg" q
    (fun parts => List.Perm.refl _) hq

theorem round64_known_values :
    round64 1 = .fin 1
      ∧ round64 (1 / 10) = .fin (3602879701896397 / 2 ^ 55)
      ∧ round64 (1 / 6) = .fin (6004799503160661 / 2 ^ 55)
      ∧ round64 (2 ^ 53 + 1) = .fin (2 ^ 53)
      ∧ round64 (1 + 1 / 2 ^ 53) = .fin 1
      ∧ round64 (1 + 3 / 2 ^ 53) = .fin (1 + 1 / 2 ^ 51)
      ∧ round64 (3 / 2 ^ 1075) = .fin (1 / 2 ^ 1073)
      ∧ round64 (2 ^ 1024) = .inf false := by
  decide!

/-! ## The `float64` arithmetic: what `round64` returns -/

theorem bitLength_spec (fuel n : Nat) (h : n ≤ fuel) (hn : n ≠ 0) :
    2 ^ (bitLength fuel n - 1) ≤ n ∧ n < 2 ^ bitLength fuel n := by
  induction fuel generalizing n with
  | zero => omega
  | succ fuel ih =>
    rw [bitLength, if_neg hn]
    by_cases h2 : n / 2 = 0
    · have hb : bitLength fuel (n / 2) = 0 := by
        rw [h2]
        cases fuel <;> simp [bitLength]
      rw [hb]
      have : n = 1 := by omega
      subst this
      simp
    · obtain ⟨hlo, hhi⟩ := ih (n / 2) (by omega) h2
      have hpos : 1 ≤ bitLength fuel (n / 2) := by
        by_contra hc
        have h0 : bitLength fuel (n / 2) = 0 := by omega
        rw [h0] at hhi
        simp at hhi
        exact h2 hhi
      have e1 : bitLength fuel (n / 2) + 1 - 1 = (bitLength fuel (n / 2) - 1) + 1 := by omega
      rw [e1, pow_succ, pow_succ]
      omega

theorem pow2_eq_zpow (e : Int) : pow2 e = (2 : ℚ) ^ e := by
  unfold pow2
  split_ifs with h
  · obtain ⟨n, rfl⟩ := Int.eq_ofNat_of_zero_le h
    simp
  · obtain ⟨n, rfl⟩ := Int.exists_eq_neg_ofNat (by omega : e ≤ 0)
    simp

theorem pow2_pos (e : Int) : 0 < pow2 e := by
  rw [pow2_eq_zpow]
  positivity

theorem floorLog2_spec (q : ℚ) (hq : 0 < q) :
    pow2 (floorLog2 q) ≤ q ∧ q < pow2 (floorLog2 q + 1) := by
  have hnum : 0 < q.num := Rat.num_pos.mpr hq
  have hden : q.den ≠ 0 := q.den_nz
  have hnat : q.num.natAbs ≠ 0 := by omega
  obtain ⟨alo, ahi⟩ := bitLength_spec q.num.natAbs q.num.natAbs (le_refl _) hnat
  obtain ⟨blo, bhi⟩ := bitLength_spec q.den q.den (le_refl _) hden
  set a := bitLength q.num.natAbs q.num.natAbs with ha
  set b := bitLength q.den q.den with hb
  have ha1 : 1 ≤ a := by
    by_contra hc
    have : a = 0 := by omega
    rw [this, pow_zero] at ahi
    omega
  have hb1 : 1 ≤ b := by
    by_contra hc
    have : b = 0 := by omega
    rw [this, pow_zero] at bhi
    omega
  have hqeq : q = (q.num.natAbs : ℚ) / (q.den : ℚ) := by
    have h1 : (q.num.natAbs : Int) = q.num := Int.natAbs_of_nonneg (le_of_lt hnum)
    have h2 : ((q.num.natAbs : Nat) : ℚ) = ((q.num : Int) : ℚ) := by
      rw [← Int.cast_natCast, h1]
    rw [h2]
    exact (Rat.num_div_den q).symm
  have hdpos : (0 : ℚ) < (q.den : ℚ) := by exact_mod_cast Nat.pos_of_ne_zero hden
  -- bounds in ℚ
  have alo' : (2 : ℚ) ^ (a - 1) ≤ (q.num.natAbs : ℚ) := by exact_mod_cast alo
  have ahi' : (q.num.natAbs : ℚ) < (2 : ℚ) ^ a := by exact_mod_cast ahi
  have blo' : (2 : ℚ) ^ (b - 1) ≤ (q.den : ℚ) := by exact_mod_cast blo
  have bhi' : (q.den : ℚ) < (2 : ℚ) ^ b := by exact_mod_cast bhi
  have hlow : (2 : ℚ) ^ ((a : Int) - (b : Int) - 1) ≤ q := by
    rw [hqeq, le_div_iff₀ hdpos]
    have e1 : (2 : ℚ) ^ ((a : Int) - (b : Int) - 1) * (2 : ℚ) ^ b = (2 : ℚ) ^ (a - 1) := by
      rw [← zpow_natCast (2 : ℚ) b, ← zpow_add₀ (by norm_num : (2 : ℚ) ≠ 0),
        ← zpow_natCast (2 : ℚ) (a - 1)]
      congr 1
      omega
    calc (2 : ℚ) ^ ((a : Int) - (b : Int) - 1) * (q.den : ℚ)
        ≤ (2 : ℚ) ^ ((a : Int) - (b : Int) - 1) * (2 : ℚ) ^ b :=
          mul_le_mul_of_nonneg_left (le_of_lt bhi') (by positivity)
      _ = (2 : ℚ) ^ (a - 1) := e1
      _ ≤ _ := alo'
  have hhigh : q < (2 : ℚ) ^ ((a : Int) - (b : Int) + 1) := by
    rw [hqeq, div_lt_iff₀ hdpos]
    have e1 : (2 : ℚ) ^ ((a : Int) - (b : Int) + 1) * (2 : ℚ) ^ (b - 1) = (2 : ℚ) ^ a := by
      rw [← zpow_natCast (2 : ℚ) (b - 1), ← zpow_add₀ (by norm_num : (2 : ℚ) ≠ 0),
        ← zpow_natCast (2 : ℚ) a]
      congr 1
      omega
    calc (q.num.natAbs : ℚ) < (2 : ℚ) ^ a := ahi'
      _ = (2 : ℚ) ^ ((a : Int) - (b : Int) + 1) * (2 : ℚ) ^ (b - 1) := e1.symm
      _ ≤ (2 : ℚ) ^ ((a : Int) - (b : Int) + 1) * (q.den : ℚ) :=
          mul_le_mul_of_nonneg_left blo' (by positivity)
  unfold floorLog2
  simp only [← ha, ← hb]
  split_ifs with hlt
  · refine ⟨?_, ?_⟩
    · rw [pow2_eq_zpow]
      exact hlow
    · have : (a : Int) - (b : Int) - 1 + 1 = (a : Int) - (b : Int) := by ring
      rw [this]
      exact hlt
  · refine ⟨not_lt.mp hlt, ?_⟩
    rw [pow2_eq_zpow]
    exact hhigh

theorem roundHalfEven_spec (q : ℚ) : |((roundHalfEven q : Int) : ℚ) - q| ≤ 1 / 2 := by
  have hfl : ((Rat.floor q : Int) : ℚ) ≤ q := Int.floor_le q
  have hfu : q < ((Rat.floor q : Int) : ℚ) + 1 := Int.lt_floor_add_one q
  unfold roundHalfEven
  simp only
  split_ifs with h1 h2 h3
  · rw [abs_le]
    constructor <;> linarith
  · rw [abs_le]
    push_cast
    constructor <;> linarith
  · rw [abs_le]
    constructor <;> linarith
  · rw [abs_le]
    push_cast
    constructor <;> linarith

theorem roundHalfEven_tie (q : ℚ) (h : q - ((Rat.floor q : Int) : ℚ) = 1 / 2) :
    roundHalfEven q % 2 = 0 := by
  unfold roundHalfEven
  simp only [h, lt_irrefl, if_false]
  split_ifs with h3
  · exact h3
  · omega

theorem pow2_add (a b : Int) : pow2 (a + b) = pow2 a * pow2 b := by
  simp only [pow2_eq_zpow]
  exact zpow_add₀ (by norm_num) a b

theorem pow2_mono (a b : Int) (h : a ≤ b) : pow2 a ≤ pow2 b := by
  simp only [pow2_eq_zpow]
  exact zpow_le_zpow_right₀ (by norm_num) h

/-- The value `round64` returns is `n * 2 ^ (e - 52)` for an integer `n` of at most 53
bits, where `2 ^ e` is the binade of `q` (`e` at least -1022), and it lies within half
a unit `2 ^ (e - 52)` of `q`. -/
theorem round64_spec (q r : ℚ) (hq : q ≠ 0) (h : round64 q = .fin r) :
    (pow2 (floorLog2 |q|) ≤ |q| ∧ |q| < pow2 (floorLog2 |q| + 1))
      ∧ (∃ n : Int, r = (n : ℚ) * pow2 (max (floorLog2 |q|) (-1022) - 52)
          ∧ |n| ≤ 2 ^ 53)
      ∧ |r - q| ≤ pow2 (max (floorLog2 |q|) (-1022) - 52) / 2 := by
  have hfl := floorLog2_spec |q| (abs_pos.mpr hq)
  refine ⟨hfl, ?_⟩
  unfold round64 at h
  rw [if_neg hq] at h
  simp only at h
  split_ifs at h with hov
  cases h
  set e := max (floorLog2 |q|) (-1022) with he
  set ulp := pow2 (e - 52) with hulp
  have hupos : 0 < ulp := pow2_pos _
  have hs := roundHalfEven_spec (q / ulp)
  have hbound : |q / ulp| < 2 ^ 53 := by
    rw [abs_div, abs_of_pos hupos, div_lt_iff₀ hupos]
    have h1 : pow2 (floorLog2 |q| + 1) ≤ pow2 (e + 1) :=
      pow2_mono _ _ (by have := le_max_left (floorLog2 |q|) (-1022); omega)
    have h2 : pow2 (e + 1) = 2 ^ 53 * ulp := by
      have : e + 1 = 53 + (e - 52) := by ring
      rw [this, pow2_add, hulp]
      congr 1
    calc |q| < pow2 (floorLog2 |q| + 1) := hfl.2
      _ ≤ pow2 (e + 1) := h1
      _ = 2 ^ 53 * ulp := h2
  refine ⟨⟨_, rfl, ?_⟩, ?_⟩
  · have hlt : |((roundHalfEven (q / ulp) : Int) : ℚ)| < 2 ^ 53 + 1 := by
      have h3 : |((roundHalfEven (q / ulp) : Int) : ℚ)|
          ≤ |((roundHalfEven (q / ulp) : Int) : ℚ) - q / ulp| + |q / ulp| := by
        have := abs_add (((roundHalfEven (q / ulp) : Int) : ℚ) - q / ulp) (q / ulp)
        simpa using this
      linarith
    have hlt' : |roundHalfEven (q / ulp)| < 2 ^ 53 + 1 := by
      have : ((|roundHalfEven (q / ulp)| : Int) : ℚ) < ((2 ^ 53 + 1 : Int) : ℚ) := by
        push_cast
        norm_num at hlt ⊢
        exact hlt
      exact_mod_cast this
    omega
  · have e1 : ((roundHalfEven (q / ulp) : Int) : ℚ) * ulp - q
        = (((roundHalfEven (q / ulp) : Int) : ℚ) - q / ulp) * ulp := by
      field_simp
    rw [e1, abs_mul, abs_of_pos hupos]
    calc |((roundHalfEven (q / ulp) : Int) : ℚ) - q / ulp| * ulp ≤ 1 / 2 * ulp :=
          mul_le_mul_of_nonneg_right hs (le_of_lt hupos)
      _ = ulp / 2 := by ring

/-! ## Histogram intersection in `float64` -/

theorem roundingHisto_normalized : roundingHisto.Normalized := by
  refine ⟨by simp only [roundingHisto, List.length_append, List.length_cons, List.length_nil,
    List.length_replicate], ?_, ?_⟩
  · intro v hv
    simp only [roundingHisto, List.mem_append, List.mem_cons, List.mem_replicate,
      List.mem_singleton, List.not_mem_nil, or_false] at hv
    rcases hv with (rfl | rfl | rfl | rfl | rfl | rfl) | ⟨-, rfl⟩ <;> norm_num
  · simp only [roundingHisto, List.sum_append, List.sum_cons, List.sum_nil,
      List.sum_replicate, smul_zero]
    norm_num

theorem quarterHistoA_normalized : quarterHistoA.Normalized := by
  refine ⟨by simp only [quarterHistoA, List.length_append, List.length_cons, List.length_nil,
    List.length_replicate], ?_, ?_⟩
  · intro v hv
    simp only [quarterHistoA, List.mem_append, List.mem_cons, List.mem_replicate,
      List.mem_singleton, List.not_mem_nil, or_false] at hv
    rcases hv with (rfl | rfl | rfl | rfl) | ⟨-, rfl⟩ <;> norm_num
  · simp only [quarterHistoA, List.sum_append, List.sum_cons, List.sum_nil,
      List.sum_replicate, smul_zero]
    norm_num

theorem quarterHistoB_normalized : quarterHistoB.Normalized := by
  refine ⟨by simp only [quarterHistoB, List.length_append, List.length_cons, List.length_nil,
    List.length_replicate], ?_, ?_⟩
  · intro v hv
    simp only [quarterHistoB, List.mem_append, List.mem_cons, List.mem_replicate,
      List.mem_singleton, List.not_mem_nil, or_false] at hv
    rcases hv with (rfl | rfl | rfl | rfl) | ⟨-, rfl⟩ <;> norm_num
  · simp only [quarterHistoB, List.sum_append, List.sum_cons, List.sum_nil,
      List.sum_replicate, smul_zero]
    norm_num

theorem foldl_range_getD_eq_zip (xs ys : List F64) (h : xs.length = ys.length)
    (init : F64) :
    (List.range ys.length).foldl
        (fun r i => r.add ((xs.getD i (.fin 0)).min (ys.getD i (.fin 0)))) init
      = (xs.zip ys).foldl (fun (r : F64) (p : F64 × F64) => r.add (p.1.min p.2)) init := by
  induction ys generalizing xs init with
  | nil => simp
  | cons y ys ih =>
    cases xs with
    | nil => simp at h
    | cons x xs =>
      have hlen : xs.length = ys.length := by simpa using h
      rw [List.length_cons, List.range_succ_eq_map, List.foldl_cons, List.foldl_map]
      simp only [List.getD_cons_zero, List.getD_cons_succ, List.zip_cons_cons,
        List.foldl_cons]
      exact ih xs hlen _

theorem foldl_zero_pairs (x : ℚ) (hx : round64 x = .fin x) (k : Nat) :
    (List.replicate k (F64.fin 0, F64.fin 0)).foldl
        (fun (r : F64) (p : F64 × F64) => r.add (p.1.min p.2)) (.fin x) = .fin x := by
  induction k with
  | zero => rfl
  | succ k ih =>
    rw [List.replicate_succ, List.foldl_cons]
    have hstep : (F64.fin x).add ((F64.fin 0).min (F64.fin 0)) = .fin x := by
      simp [F64.add, F64.min, hx]
    rw [hstep, ih]

/-- Bins that are zero in both histograms leave the `float64` running sum as it is. -/
theorem compareHistogramsF_padded (n₁ n₂ : String) (p₁ p₂ : List F64) (k : Nat) (x : ℚ)
    (hlen : p₁.length = p₂.length)
    (hp : (p₁.zip p₂).foldl (fun (r : F64) (p : F64 × F64) => r.add (p.1.min p.2)) (.fin 0) = .fin x)
    (hx : round64 x = .fin x) :
    compareHistogramsF ⟨n₁, p₁ ++ List.replicate k (.fin 0)⟩
      ⟨n₂, p₂ ++ List.replicate k (.fin 0)⟩ = .fin x := by
  unfold compareHistogramsF
  rw [foldl_range_getD_eq_zip _ _ (by simp [hlen]),
    List.zip_append hlen, List.foldl_append, hp, List.zip_replicate, Nat.min_self]
  exact foldl_zero_pairs x hx k

theorem roundingHisto_toF64 :
    roundingHisto.toF64
      = ⟨"r.jpg", [.fin ((2 ^ 55 + 8) / 2 ^ 56), .fin (5 / 2 ^ 56), .fin (5 / 2 ^ 56),
          .fin (5 / 2 ^ 56), .fin (5 / 2 ^ 56), .fin ((2 ^ 55 - 28) / 2 ^ 56)]
          ++ List.replicate 506 (.fin 0)⟩ := by
  simp only [roundingHisto, Histo.toF64, List.map_append, List.map_replicate, List.map_cons,
    List.map_nil]

theorem quarterHisto_toF64 :
    quarterHistoA.toF64
        = ⟨"a.jpg", [.fin (1 / 2), .fin (1 / 4), .fin (1 / 4 - 1 / 2 ^ 55),
            .fin (1 / 2 ^ 55)] ++ List.replicate 508 (.fin 0)⟩
      ∧ quarterHistoB.toF64
        = ⟨"b.jpg", [.fin (1 / 2), .fin (1 / 4), .fin (1 / 4), .fin 0]
            ++ List.replicate 508 (.fin 0)⟩ := by
  constructor <;>
    simp only [quarterHistoA, quarterHistoB, Histo.toF64, List.map_append,
      List.map_replicate, List.map_cons, List.map_nil]

theorem roundingHisto_float_sum :
    compareHistogramsF roundingHisto.toF64 roundingHisto.toF64 = .fin (1 + 1 / 2 ^ 52) := by
  rw [roundingHisto_toF64]
  exact compareHistogramsF_padded _ _ _ _ 506 _ rfl (by decide!) (by decide!)

theorem quarterHisto_representable :
    (∀ v ∈ quarterHistoA.H, round64 v = .fin v)
      ∧ (∀ v ∈ quarterHistoB.H, round64 v = .fin v) := by
  decide!

theorem quarterHisto_bins_differ : quarterHistoA.H ≠ quarterHistoB.H := by
  decide!

theorem quarterHisto_float_sum :
    compareHistogramsF quarterHistoA.toF64 quarterHistoB.toF64 = .fin 1
      ∧ compareHistogramsF quarterHistoB.toF64 quarterHistoA.toF64 = .fin 1 := by
  rw [quarterHisto_toF64.1, quarterHisto_toF64.2]
  exact ⟨compareHistogramsF_padded _ _ _ _ 508 _ rfl (by decide!) (by decide!),
    compareHistogramsF_padded _ _ _ _ 508 _ rfl (by decide!) (by decide!)⟩

/-- C5 (as stated, refuted): in `float64` two normalised histograms with different bins
score exactly 1 in both argument orders, and a normalised histogram scores 1 + 2^-52,
not 1, against itself. -/
theorem compareHistograms_float_one_counterexample :
    (quarterHistoA.Normalized ∧ quarterHistoB.Normalized
        ∧ (∀ v ∈ quarterHistoA.H, round64 v = .fin v)
        ∧ (∀ v ∈ quarterHistoB.H, round64 v = .fin v)
        ∧ quarterHistoA.H ≠ quarterHistoB.H
        ∧ compareHistogramsF quarterHistoA.toF64 quarterHistoB.toF64 = .fin 1
        ∧ compareHistogramsF quarterHistoB.toF64 quarterHistoA.toF64 = .fin 1)
      ∧ (roundingHisto.Normalized
        ∧ compareHistogramsF roundingHisto.toF64 roundingHisto.toF64 ≠ .fin 1) := by
  refine ⟨⟨quarterHistoA_normalized, quarterHistoB_normalized, quarterHisto_representable.1,
    quarterHisto_representable.2, quarterHisto_bins_differ, quarterHisto_float_sum.1,
    quarterHisto_float_sum.2⟩, roundingHisto_normalized, ?_⟩
  rw [roundingHisto_float_sum]
  intro h
  have h' : (1 + 1 / 2 ^ 52 : ℚ) = 1 := F64.fin.inj h
  norm_num at h'

/-! ## Zero-pixel images and the single identical file, in `float64` -/

theorem countPixelsF_of_no_pixel (img : Image) (depth : Int)
    (h : img.width = 0 ∨ img.height = 0) :
    countPixelsF img depth = some (List.replicate 512 (.fin 0), .fin 0) := by
  have houter := foldlM_inv
    (fun st y => (List.range img.width).foldlM
      (fun st x => countPixelF depth st (img.At x y)) st)
    (fun st _ => st = (List.replicate 512 (F64.fin 0), F64.fin 0))
    (List.range img.height) 0
    (by
      intro st n y hy hI
      rcases h with h | h
      · refine ⟨st, ?_, hI⟩
        rw [h]
        rfl
      · rw [h] at hy
        simp at hy)
    (List.replicate 512 (.fin 0), .fin 0) 0 rfl
  obtain ⟨st, hst, hI⟩ := houter
  rw [← hI]
  exact hst

theorem F64_zero_div_zero : (F64.fin 0).div (.fin 0) = .nan := by
  simp [F64.div]

theorem computeHistogramF_of_no_pixel (decode : String → Except String Image)
    (imagePath : String) (img : Image) (depth : Int) (hdec : decode imagePath = .ok img)
    (h : img.width = 0 ∨ img.height = 0) :
    computeHistogramF decode imagePath depth
      = .ok ⟨imagePath, List.replicate 512 .nan⟩ := by
  simp only [computeHistogramF, hdec, histogramOfF, countPixelsF_of_no_pixel img depth h,
    List.map_replicate, F64_zero_div_zero]

/-- C11 (as stated, refuted): on a decoded 0x0 image computeHistogram returns no error
but a histogram, each of its 512 bins being 0.0 / 0.0, that is NaN. -/
theorem computeHistogram_empty_counterexample :
    computeHistogramF (fun _ => .ok emptyImage) "e.jpg" 3
        = .ok ⟨"e.jpg", List.replicate 512 .nan⟩
      ∧ ∀ f : Failure, computeHistogramF (fun _ => .ok emptyImage) "e.jpg" 3 ≠ .error f := by
  have h := computeHistogramF_of_no_pixel (fun _ => .ok emptyImage) "e.jpg" emptyImage 3 rfl
    (Or.inl rfl)
  refine ⟨h, ?_⟩
  intro f hf
  rw [h] at hf
  cases hf

/-- C11 (amended): for every decoded image with zero pixels (width = 0 or height = 0)
and every depth, computeHistogram returns no error: it returns the histogram named
after the path whose 512 bins are all NaN, each being the `float64` quotient of the
zero count by the zero pixel count. -/
theorem computeHistogram_empty_image (decode : String → Except String Image)
    (imagePath : String) (img : Image) (depth : Int) (hdec : decode imagePath = .ok img)
    (h : img.width = 0 ∨ img.height = 0) :
    computeHistogramF decode imagePath depth = .ok ⟨imagePath, List.replicate 512 .nan⟩
      ∧ (∀ f : Failure, computeHistogramF decode imagePath depth ≠ .error f)
      ∧ (F64.fin 0).div (.fin 0) = .nan := by
  have h' := computeHistogramF_of_no_pixel decode imagePath img depth hdec h
  refine ⟨h', ?_, F64_zero_div_zero⟩
  intro f hf
  rw [h'] at hf
  cases hf

/-- Instance of the amended C11 on an image of width 0 and height 3, at depth 3. -/
theorem computeHistogram_empty_image_witness :
    ((⟨0, 3, fun _ _ => (0, 0, 0)⟩ : Image).width = 0
        ∨ (⟨0, 3, fun _ _ => (0, 0, 0)⟩ : Image).height = 0)
      ∧ computeHistogramF (fun _ => .ok ⟨0, 3, fun _ _ => (0, 0, 0)⟩) "w.jpg" 3
        = .ok ⟨"w.jpg", List.replicate 512 .nan⟩ :=
  ⟨Or.inl rfl,
    (computeHistogram_empty_image (fun _ => .ok ⟨0, 3, fun _ _ => (0, 0, 0)⟩) "w.jpg"
      ⟨0, 3, fun _ _ => (0, 0, 0)⟩ 3 rfl (Or.inl rfl)).1⟩

end SimilaritySearch
